import Mathlib

/-!
Verification development for the B^e-tree implementation (betree.hpp) and its
LRU cache manager (cache_manager.cpp).

The C++ data structures are shallowly embedded:
  * `std::map` values are embedded as association lists sorted strictly by key;
  * a tree node (`class node`) is the inductive `Node`, a `child_info` is
    `ChildInfo`;
  * machine integers (`uint64_t` sizes, timestamps) are embedded as `Nat`
    (the quantities involved stay far below 2^64 on all inputs considered,
    so modular wrap-around is never exercised);
  * exceptions (`std::out_of_range`) and assertion failures are explicit
    error values in `Except`;
  * unbounded loops / recursion through `swap_space` pointers are embedded
    with an explicit fuel parameter; running out of fuel is reported as an
    error, i.e. as a non-returning call, so every theorem about a *returning*
    call is faithful;
  * the cache state consulted through `pointer::is_dirty` /
    `pointer::is_in_memory` is abstracted into a `CacheModel`: an opaque state
    updated at each allocation (`note_birth`) and at each write pin
    (`get_target(true)`), and consulted read-only by the two predicates.
    Quantifying over all cache models soundly covers every real cache
    behaviour; a concrete "dirty bit per object id" instance (`FlagCache`)
    reproduces the actual swap-space behaviour for a given schedule of cache
    cleanings.
-/

namespace BeTree

/-- The three upsert opcodes, `#define INSERT (0)` etc. in betree.hpp. -/
inductive Opcode : Type where
  | INSERT : Opcode
  | DELETE : Opcode
  | UPDATE : Opcode
deriving DecidableEq, Repr

/-- `MessageKey<Key>`: a user key together with a timestamp. -/
structure MKey (K : Type) : Type where
  key : K
  timestamp : Nat
deriving DecidableEq, Repr

/-- `Message<Value>`: an opcode together with a value. -/
structure Msg (V : Type) : Type where
  opcode : Opcode
  val : V
deriving DecidableEq, Repr

variable {K : Type} [LinearOrder K] {V : Type}

/-- Lexicographic order on message keys: `operator<(MessageKey, MessageKey)`. -/
def mkeyLt (a b : MKey K) : Prop :=
  a.key < b.key ∨ (a.key = b.key ∧ a.timestamp < b.timestamp)

instance : DecidablePred fun p : MKey K × MKey K => mkeyLt p.1 p.2 := by
  intro p; unfold mkeyLt; infer_instance

instance mkeyLtDec (a b : MKey K) : Decidable (mkeyLt a b) := by
  unfold mkeyLt; infer_instance

/-- A `message_map`: `std::map<MessageKey<Key>, Message<Value>>` embedded as an
association list sorted strictly by `mkeyLt`. -/
abbrev MsgMap (K V : Type) := List (MKey K × Msg V)

/-- Erasing `[lower_bound(range_start(k)), upper_bound(range_end(k)))` from a
message map removes exactly the entries whose user key equals `k` (the range
covers every timestamp from `0` to `UINT64_MAX`). -/
def purge (k : K) (es : MsgMap K V) : MsgMap K V :=
  es.filter fun e => ¬ e.1.key = k

/-- `elements[mkey] = elt` on a sorted map: insert at the sorted position,
replacing an entry with an equal key. -/
def mmAssign (mk : MKey K) (m : Msg V) : MsgMap K V → MsgMap K V
  | [] => [(mk, m)]
  | e :: rest =>
    if mkeyLt mk e.1 then (mk, m) :: e :: rest
    else if mk = e.1 then (mk, m) :: rest
    else e :: mmAssign mk m rest

/-- The greatest entry of a sorted message map whose user key equals `k`.
This is what the source computes with
`iter = elements.upper_bound(mkey.range_end()); if (iter != begin) iter--;`
followed by the test `iter == end || iter->first.key != mkey.key`:
after the decrement, `iter` is the last entry `≤ (k, UINT64_MAX)`, and the
test succeeds exactly when no entry has user key `k`. -/
def findLastForKey (k : K) (es : MsgMap K V) : Option (MKey K × Msg V) :=
  (es.filter fun e => e.1.key = k).getLast?

/-- The entries of a sorted message map whose user key equals `k`, in
timestamp order; `elements.lower_bound(range_start(k))` followed by the
forward walk of `query` visits exactly these entries. -/
def msgsFor (k : K) (es : MsgMap K V) : MsgMap K V :=
  es.filter fun e => e.1.key = k

mutual
/-- `class node` of betree.hpp.  The `id` field is the swap-space object id
(assigned by `next_id++` at allocation); `height` and the sorted pivot map
are the two serialized fields. -/
inductive Node (K V : Type) : Type where
  | mk : (id : Nat) → (height : Nat) → (pivots : List (K × ChildInfo K V)) → Node K V

/-- `class child_info`: a child pointer (NULL for the pivots of a leaf),
the cached `child_size`, and the per-pivot message buffer. -/
inductive ChildInfo (K V : Type) : Type where
  | mk : (child : Option (Node K V)) → (childSize : Nat) → (elements : MsgMap K V) →
      ChildInfo K V
end

namespace Node

def id : Node K V → Nat
  | .mk i _ _ => i

def height : Node K V → Nat
  | .mk _ h _ => h

def pivots : Node K V → List (K × ChildInfo K V)
  | .mk _ _ p => p

/-- `node::is_leaf`. -/
def is_leaf (n : Node K V) : Bool := n.height = 0

end Node

namespace ChildInfo

def child : ChildInfo K V → Option (Node K V)
  | .mk c _ _ => c

def childSize : ChildInfo K V → Nat
  | .mk _ s _ => s

def elements : ChildInfo K V → MsgMap K V
  | .mk _ _ e => e

/-- `child_info(void)`: NULL child, zero size, empty buffer. -/
def empty : ChildInfo K V := .mk none 0 []

end ChildInfo

/-- `node::total_size`: number of pivots plus the sizes of all buffers. -/
def Node.total_size (n : Node K V) : Nat :=
  n.pivots.length + (n.pivots.map fun p => p.2.elements.length).sum

/-- Abstract model of the cache state observed by the tree through the
swap-space pointers.  `isDirty i` / `isInMem i` answer
`pointer::is_dirty()` / `pointer::is_in_memory()` for the object with id `i`;
`birth i` is the state change caused by `swap_space::allocate`
(`note_birth`, including any evictions it triggers), and `write i` the state
change caused by a write pin (`object::get_target(true)`, i.e. `note_write`).
Theorems quantified over all cache models cover every behaviour the real
swap space / cache manager can exhibit. -/
structure CacheModel (C : Type) : Type where
  isDirty : C → Nat → Bool
  isInMem : C → Nat → Bool
  birth : C → Nat → C
  write : C → Nat → C

/-- Ways in which a tree operation can fail to return: a C++ exception
(`std::out_of_range` escaping), a failed `assert`, or exhaustion of the
fuel that bounds the embedded recursion. -/
inductive BErr : Type where
  | outOfRange : BErr
  | assertEmptyBuf : BErr
  | assertSplit : BErr
  | assertPivots : BErr
  | assertQuery : BErr
  | nullChild : BErr
  | fuelOut : BErr
deriving DecidableEq, Repr

/-- Result of `node::get_pivot(k)` on the (sorted) pivot map:
`assert(mp.size() > 0)` fails on an empty map; a key smaller than the first
pivot throws `std::out_of_range`; otherwise the last pivot with key `≤ k`
is returned. -/
inductive GetPivot (K V : Type) : Type where
  | emptyMap : GetPivot K V
  | below : GetPivot K V
  | found : K → ChildInfo K V → GetPivot K V

/-- The last entry of a sorted association list whose key is `≤ k`
(the entry `get_pivot` returns). -/
def lookupLE (k : K) : List (K × ChildInfo K V) → Option (K × ChildInfo K V)
  | [] => none
  | e :: rest =>
    match lookupLE k rest with
    | some r => some r
    | none => if e.1 ≤ k then some e else none

/-- `node::get_pivot(k)`. -/
def getPivot : List (K × ChildInfo K V) → K → GetPivot K V
  | [], _ => .emptyMap
  | e :: rest, k =>
    if k < e.1 then .below
    else
      match lookupLE k (e :: rest) with
      | some r => .found r.1 r.2
      | none => .below

/-- Replace, in a sorted association list, the entry `get_pivot k` designates
(the last entry with key `≤ k`) by the image of `f`.  Lists with no such
entry are returned unchanged (the callers have ruled that case out through
`getPivot`). -/
def updateLE (k : K) (f : ChildInfo K V → ChildInfo K V) :
    List (K × ChildInfo K V) → List (K × ChildInfo K V)
  | [] => []
  | e :: rest =>
    match rest with
    | [] => if e.1 ≤ k then [(e.1, f e.2)] else [e]
    | e' :: _ =>
      if e'.1 ≤ k then e :: updateLE k f rest
      else if e.1 ≤ k then (e.1, f e.2) :: rest
      else e :: rest

/-- Erase the entry with the given key from a sorted association list
(`pivots.erase(it)`). -/
def pmErase (k : K) : List (K × ChildInfo K V) → List (K × ChildInfo K V)
  | [] => []
  | e :: rest => if e.1 = k then rest else e :: pmErase k rest

/-- Insert one entry into a sorted association list, keeping the existing
entry on key collision (`std::map::insert` does not overwrite). -/
def pmInsertKeep (k : K) (ci : ChildInfo K V) :
    List (K × ChildInfo K V) → List (K × ChildInfo K V)
  | [] => [(k, ci)]
  | e :: rest =>
    if k < e.1 then (k, ci) :: e :: rest
    else if k = e.1 then e :: rest
    else e :: pmInsertKeep k ci rest

/-- `pivots.insert(new_children.begin(), new_children.end())`. -/
def pmInsertAll (pv new : List (K × ChildInfo K V)) : List (K × ChildInfo K V) :=
  new.foldl (fun acc e => pmInsertKeep e.1 e.2 acc) pv

/-- The buffer update performed by `node::apply` on the elements of the
pivot responsible for the message's key.  `isLeaf` distinguishes the leaf
cases.  The UPDATE case collapses onto a trailing INSERT (through the
recursive `apply(mkey, Message(INSERT, ...))` call, which purges and
stores). -/
def applyToElements (isLeaf : Bool) (dv : V) [Add V] (mk : MKey K) (m : Msg V)
    (es : MsgMap K V) : MsgMap K V :=
  match m.opcode with
  | .INSERT => mmAssign mk m (purge mk.key es)
  | .DELETE =>
    if isLeaf then purge mk.key es
    else mmAssign mk m (purge mk.key es)
  | .UPDATE =>
    match findLastForKey mk.key es with
    | none =>
      if isLeaf then mmAssign mk ⟨.INSERT, dv + m.val⟩ (purge mk.key es)
      else mmAssign mk m es
    | some e =>
      if e.2.opcode = .INSERT then
        mmAssign mk ⟨.INSERT, e.2.val + m.val⟩ (purge mk.key es)
      else mmAssign mk m es

/-- `node::apply(mkey, elt, default_value)`: locate the pivot for the key
through `get_pivot` and rewrite its buffer. -/
def Node.applyMsg [Add V] (dv : V) (n : Node K V) (mk : MKey K) (m : Msg V) :
    Except BErr (Node K V) :=
  match getPivot n.pivots mk.key with
  | .emptyMap => .error .assertPivots
  | .below => .error .outOfRange
  | .found _ _ =>
    .ok ⟨n.id, n.height,
      updateLE mk.key
        (fun ci => ⟨ci.child, ci.childSize,
          applyToElements n.is_leaf dv mk m ci.elements⟩) n.pivots⟩

/-- Entry of a sorted pivot map with exactly the given key. -/
def pmLookup (k : K) : List (K × ChildInfo K V) → Option (ChildInfo K V)
  | [] => none
  | e :: rest => if e.1 = k then some e.2 else pmLookup k rest

/-- Replace the entry with exactly the given key (no-op when absent). -/
def pmSet (k : K) (ci : ChildInfo K V) :
    List (K × ChildInfo K V) → List (K × ChildInfo K V)
  | [] => []
  | e :: rest => if e.1 = k then (k, ci) :: rest else e :: pmSet k ci rest

/-- Overwrite only the cached `child_size` of the entry with the given key.
When the key is absent this is a no-op; in the source that situation is the
use of an iterator invalidated by `pivots.erase` (undefined behaviour), which
only arises after an earlier loop iteration erased the first pivot. -/
def pmSetSize (k : K) (s : Nat) : List (K × ChildInfo K V) → List (K × ChildInfo K V)
  | [] => []
  | e :: rest =>
    if e.1 = k then (e.1, ⟨e.2.child, s, e.2.elements⟩) :: rest
    else e :: pmSetSize k s rest

/-- The swap-space state a flush threads along: the cache-manager state and
the `next_id` counter used by `allocate`. -/
structure SwapSt (C : Type) : Type where
  cache : C
  nextId : Nat

variable {C : Type}

/-- `node::split`: allocate two nodes of the same height, move the first
`⌊n/2⌋` pivots into the first and the rest into the second, and return the
two-entry pivot map keyed by the minimal keys of the halves, with
`child_size` recomputed through `child_info(node_pointer)`. -/
def splitNode (cm : CacheModel C) (maxNS : Nat) (st : SwapSt C) (n : Node K V) :
    Except BErr (List (K × ChildInfo K V) × SwapSt C) :=
  if n.total_size < maxNS then .error .assertSplit
  else if n.pivots.length ≤ 1 then .error .assertSplit
  else
    match n.pivots.take (n.pivots.length / 2), n.pivots.drop (n.pivots.length / 2) with
    | e0 :: t0, e1 :: t1 =>
      let node0 : Node K V := ⟨st.nextId, n.height, e0 :: t0⟩
      let node1 : Node K V := ⟨st.nextId + 1, n.height, e1 :: t1⟩
      let c2 := cm.write (cm.write (cm.birth (cm.birth st.cache st.nextId)
                  (st.nextId + 1)) st.nextId) (st.nextId + 1)
      .ok ([(e0.1, ⟨some node0, node0.total_size, []⟩),
            (e1.1, ⟨some node1, node1.total_size, []⟩)],
           ⟨c2, st.nextId + 2⟩)
    | _, _ => .error .assertSplit

/-- One split of an oversized per-pivot buffer (`node::split_pivot`) plus the
continuation of the `rebalance_leaf_pivots` iteration.  The C++ loop is a
range-for over `pivots` into which `split_pivot` inserts new entries; because
`std::map` iterators survive insertion and the new key lies strictly between
the current key and its successor, the loop next visits the freshly inserted
pivot — except when the new key equals the current one, in which case the
current slot is overwritten in place and the loop moves on.  Fuel bounds the
iteration; `rebFuel` below always suffices. -/
def rebalancePivots (m : Nat) :
    Nat → List (K × ChildInfo K V) → Except BErr (List (K × ChildInfo K V))
  | 0, _ => .error .fuelOut
  | _, [] => .ok []
  | fuel+1, (k, ci) :: rest =>
    if ci.elements.length > 2 * m then
      match ci.elements.drop (ci.elements.length / 2) with
      | [] => do
        let r ← rebalancePivots m fuel rest
        .ok ((k, ci) :: r)
      | e :: hirest =>
        if e.1.key = k then do
          let r ← rebalancePivots m fuel rest
          .ok ((k, ⟨ci.child, ci.childSize, e :: hirest⟩) :: r)
        else do
          let r ← rebalancePivots m fuel
            ((e.1.key, ⟨none, 0, e :: hirest⟩) :: rest)
          .ok ((k, ⟨ci.child, ci.childSize,
                ci.elements.take (ci.elements.length / 2)⟩) :: r)
    else do
      let r ← rebalancePivots m fuel rest
      .ok ((k, ci) :: r)

/-- Fuel that always suffices for `rebalancePivots`. -/
def rebFuel (pv : List (K × ChildInfo K V)) : Nat :=
  2 * (pv.map fun p => p.2.elements.length).sum + 2 * pv.length + 2

/-- The candidate scan of the flush loop (betree.hpp lines 492-506): walk the
pivots in order and remember the first pivot attaining the maximal buffer
size among those whose buffer has at least `min_flush_size` messages, or at
least `min_flush_size/2` messages with the child in memory.  Returns `none`
when no candidate with a non-empty buffer exists (`max_size == 0`, the loop
breaks). -/
def selectFlushChild (cm : CacheModel C) (c : C) (minFS : Nat) :
    List (K × ChildInfo K V) → Nat → Option K → Except BErr (Option K)
  | [], _, best => .ok best
  | (k, ci) :: rest, maxSz, best => do
    let nm := ci.elements.length
    let cand ←
      if minFS ≤ nm then pure true
      else if minFS / 2 ≤ nm then
        match ci.child with
        | none => Except.error BErr.nullChild
        | some ch => pure (cm.isInMem c ch.id)
      else pure false
    if cand ∧ maxSz < nm then selectFlushChild cm c minFS rest nm (some k)
    else selectFlushChild cm c minFS rest maxSz best

/-- The pivot set seen by the body of `node::flush` once the batch is known to
be non-empty: an empty pivot map is seeded with one empty pivot at the batch's
first key (betree.hpp lines 436-439), and if the batch's first key is below the
current minimum pivot key, that pivot is renamed down to it (lines 443-448).
The seeded or existing map is never empty, so the `[]` arm is unreachable. -/
def seedPivots (k0 : K) (pv : List (K × ChildInfo K V)) : List (K × ChildInfo K V) :=
  match (if pv.isEmpty then [(k0, ChildInfo.empty)] else pv) with
  | [] => []
  | (oldmin, ci0) :: prest =>
    if k0 < oldmin then (k0, ci0) :: prest else (oldmin, ci0) :: prest

mutual

/-- `node::flush(bet, elts)`.  Returns the node after the flush together with
the pivot map produced by a split of this node (empty when no split) and the
updated swap-space state.  Fuel bounds the recursion; exhaustion is an error,
i.e. a non-returning call. -/
def flush [Add V] (cm : CacheModel C) (minFS maxNS : Nat) (dv : V) :
    Nat → SwapSt C → Node K V → MsgMap K V →
    Except BErr (Node K V × List (K × ChildInfo K V) × SwapSt C)
  | 0, _, _, _ => .error .fuelOut
  | _+1, st, n, [] => .ok (n, [], st)
  | fuel+1, st, n, e0 :: erest =>
      if n.height = 0 then do
        let n2 ← (e0 :: erest).foldlM (fun nn e => Node.applyMsg dv nn e.1 e.2)
          (⟨n.id, n.height, seedPivots e0.1.key n.pivots⟩ : Node K V)
        let rp ← rebalancePivots minFS (rebFuel n2.pivots) n2.pivots
        if maxNS ≤ (Node.mk n2.id n2.height rp : Node K V).total_size then do
          let (res, st') ← splitNode cm maxNS st ⟨n2.id, n2.height, rp⟩
          .ok (⟨n2.id, n2.height, rp⟩, res, st')
        else .ok (⟨n2.id, n2.height, rp⟩, [], st)
      else
        match (e0 :: erest).getLast? with
        | none => .error .assertPivots
        | some eL =>
          match getPivot (seedPivots e0.1.key n.pivots) e0.1.key,
                getPivot (seedPivots e0.1.key n.pivots) eL.1.key with
          | .found fk fci, .found lk _ =>
            if fk = lk then
              match fci.child with
              | none => .error .nullChild
              | some ch =>
                if cm.isDirty st.cache ch.id then
                  if fci.elements.length ≠ 0 then .error .assertEmptyBuf
                  else do
                    let (ch', res, st2) ← flush cm minFS maxNS dv fuel
                        ⟨cm.write st.cache ch.id, st.nextId⟩ ch (e0 :: erest)
                    if res.isEmpty then
                      .ok (⟨n.id, n.height,
                            pmSet fk ⟨some ch', ch'.total_size, fci.elements⟩
                              (seedPivots e0.1.key n.pivots)⟩, [],
                           ⟨cm.write st2.cache ch'.id, st2.nextId⟩)
                    else
                      .ok (⟨n.id, n.height,
                            pmInsertAll (pmErase fk (seedPivots e0.1.key n.pivots)) res⟩,
                           [], st2)
                else do
                  let n2 ← (e0 :: erest).foldlM (fun nn e => Node.applyMsg dv nn e.1 e.2)
                    (⟨n.id, n.height, seedPivots e0.1.key n.pivots⟩ : Node K V)
                  let (n3, st') ← flushLoop cm minFS maxNS dv fuel st n2 fk
                  if maxNS < n3.total_size then do
                    let (res, st'') ← splitNode cm maxNS st' n3
                    .ok (n3, res, st'')
                  else .ok (n3, [], st')
            else do
              let n2 ← (e0 :: erest).foldlM (fun nn e => Node.applyMsg dv nn e.1 e.2)
                (⟨n.id, n.height, seedPivots e0.1.key n.pivots⟩ : Node K V)
              let (n3, st') ← flushLoop cm minFS maxNS dv fuel st n2 fk
              if maxNS < n3.total_size then do
                let (res, st'') ← splitNode cm maxNS st' n3
                .ok (n3, res, st'')
              else .ok (n3, [], st')
          | _, _ => .error .outOfRange

/-- The `while (total_size() >= max_node_size)` loop of the interior general
case (betree.hpp lines 491-537).  `fk` is the key of `first_pivot_idx`, the
pivot the (buggy) `child_size` write on line 535 targets. -/
def flushLoop [Add V] (cm : CacheModel C) (minFS maxNS : Nat) (dv : V) :
    Nat → SwapSt C → Node K V → K → Except BErr (Node K V × SwapSt C)
  | 0, _, _, _ => .error .fuelOut
  | fuel+1, st, n, fk =>
    if maxNS ≤ n.total_size then do
      let sel ← selectFlushChild cm st.cache minFS n.pivots 0 none
      match sel with
      | none => .ok (n, st)
      | some ck =>
        match pmLookup ck n.pivots with
        | none => .error .assertPivots
        | some ci =>
          match ci.child with
          | none => .error .nullChild
          | some ch => do
            let (ch', res, st2) ← flush cm minFS maxNS dv fuel
                ⟨cm.write st.cache ch.id, st.nextId⟩ ch ci.elements
            if res.isEmpty then
              flushLoop cm minFS maxNS dv fuel
                ⟨cm.write st2.cache ch'.id, st2.nextId⟩
                ⟨n.id, n.height, pmSetSize fk ch'.total_size
                  (pmSet ck ⟨some ch', ci.childSize, []⟩ n.pivots)⟩ fk
            else
              flushLoop cm minFS maxNS dv fuel st2
                ⟨n.id, n.height, pmInsertAll
                  (pmErase ck (pmSet ck ⟨some ch', ci.childSize, []⟩ n.pivots)) res⟩ fk
    else .ok (n, st)

end

/-- The terminal fold of `node::query`: apply every remaining buffered message
for the key to the accumulated value, asserting each is an UPDATE. -/
def foldUpdates [Add V] (v : V) : MsgMap K V → Except BErr V
  | [] => .ok v
  | e :: rest =>
    if e.2.opcode = .UPDATE then foldUpdates (v + e.2.val) rest
    else .error .assertQuery

/-- `node::query(bet, k)`.  A `.error .outOfRange` result is the
`std::out_of_range` ("key does not exist") exception; other errors are
assertion failures or fuel exhaustion (non-returning calls). -/
def Node.query [Add V] (dv : V) : Nat → Node K V → K → Except BErr V
  | 0, _, _ => .error .fuelOut
  | fuel+1, n, k =>
    match getPivot n.pivots k with
    | .emptyMap => .error .assertPivots
    | .below => .error .outOfRange
    | .found _ ci =>
      if n.height = 0 then
        match msgsFor k ci.elements with
        | [] => .error .outOfRange
        | e :: _ =>
          if e.2.opcode = .INSERT then .ok e.2.val else .error .assertQuery
      else
        match msgsFor k ci.elements with
        | [] =>
          match ci.child with
          | none => .error .nullChild
          | some ch => Node.query dv fuel ch k
        | e :: rest =>
          match e.2.opcode with
          | .UPDATE =>
            match ci.child with
            | none => .error .nullChild
            | some ch =>
              match Node.query dv fuel ch k with
              | .ok t => foldUpdates t (e :: rest)
              | .error .outOfRange => foldUpdates dv (e :: rest)
              | .error er => .error er
          | .DELETE =>
            match rest with
            | [] => .error .outOfRange
            | _ => foldUpdates dv rest
          | .INSERT => foldUpdates e.2.val rest

/-- The `betree` object: tuning parameters, root pointer, timestamp counter,
the default value, and the swap-space state. -/
structure BTree (K V C : Type) : Type where
  minFlushSize : Nat
  maxNodeSize : Nat
  root : Node K V
  nextTimestamp : Nat
  defaultValue : V
  st : SwapSt C

/-- The `betree` constructor: allocate an empty leaf as the root.  The swap
space hands out object ids starting from 1. -/
def mkTree (cm : CacheModel C) (c0 : C) (maxNS minFS : Nat) (dv : V) :
    BTree K V C :=
  ⟨minFS, maxNS, ⟨1, 0, []⟩, 1, dv, ⟨cm.birth c0 1, 2⟩⟩

/-- `betree::upsert`: timestamp the message, flush it into the root (a write
pin on the root object), and install a new root over the returned pivot map
when the root split. -/
def BTree.upsert [Add V] (cm : CacheModel C) (fuel : Nat) (t : BTree K V C)
    (op : Opcode) (k : K) (v : V) : Except BErr (BTree K V C) := do
  let (root', res, st1) ←
    flush cm t.minFlushSize t.maxNodeSize t.defaultValue fuel
      ⟨cm.write t.st.cache t.root.id, t.st.nextId⟩ t.root
      [(⟨k, t.nextTimestamp⟩, ⟨op, v⟩)]
  if res.isEmpty then
    .ok { t with root := root', nextTimestamp := t.nextTimestamp + 1, st := st1 }
  else
    .ok { t with
      root := ⟨st1.nextId, root'.height + 1, res⟩,
      nextTimestamp := t.nextTimestamp + 1,
      st := ⟨cm.write (cm.birth (cm.write st1.cache root'.id) st1.nextId) st1.nextId,
             st1.nextId + 1⟩ }

/-- `betree::query`: query from the root (whose non-const dereference is a
write pin in the source; the cache-state effect is irrelevant to the result
and not tracked here). -/
def BTree.queryV [Add V] (fuel : Nat) (t : BTree K V C) (k : K) : Except BErr V :=
  Node.query t.defaultValue fuel t.root k

/-- One call of the public mutating interface, plus an arbitrary
between-operations cache transition (`set_cache_size` calls, checkpoints,
or any other cache-manager activity by the host). -/
inductive TOp (K V C : Type) : Type where
  | ins : K → V → TOp K V C
  | upd : K → V → TOp K V C
  | del : K → TOp K V C
  | cacheOp : (C → C) → TOp K V C

def runOp [Add V] (cm : CacheModel C) (fuel : Nat) (t : BTree K V C) :
    TOp K V C → Except BErr (BTree K V C)
  | .ins k v => t.upsert cm fuel .INSERT k v
  | .upd k v => t.upsert cm fuel .UPDATE k v
  | .del k => t.upsert cm fuel .DELETE k t.defaultValue
  | .cacheOp f => .ok { t with st := ⟨f t.st.cache, t.st.nextId⟩ }

def runOps [Add V] (cm : CacheModel C) (fuel : Nat) (t : BTree K V C)
    (ops : List (TOp K V C)) : Except BErr (BTree K V C) :=
  ops.foldlM (runOp cm fuel) t

/-- Concrete cache instance reproducing the swap space exactly: an object is
dirty iff it was born or written since it was last cleaned, and in memory iff
it was born, loaded or written since it was last evicted.  Between
operations, the host can force cleaning/eviction (`set_cache_size`); during
an operation nothing is cleaned here (which is the behaviour of a cache
large enough that `maybe_evict_something` never evicts). -/
structure FlagSt : Type where
  dirtyIds : List Nat
  inMemIds : List Nat

def flagCM : CacheModel FlagSt where
  isDirty := fun s i => s.dirtyIds.contains i
  isInMem := fun s i => s.inMemIds.contains i
  birth := fun s i => ⟨i :: s.dirtyIds, i :: s.inMemIds⟩
  write := fun s i => ⟨i :: s.dirtyIds, i :: s.inMemIds⟩

/-- `set_cache_size(0)` (then restoring a large size): every unpinned object
is cleaned and evicted; between tree operations nothing is pinned. -/
def flagCleanAll : FlagSt → FlagSt := fun _ => ⟨[], []⟩

/-- A partial clean-and-evict of the listed objects, as the LRU performs on a
size overflow when the listed objects are the least recently used ones. -/
def flagCleanIds (ids : List Nat) (s : FlagSt) : FlagSt :=
  ⟨s.dirtyIds.filter (fun i => ¬ ids.contains i),
   s.inMemIds.filter (fun i => ¬ ids.contains i)⟩

/-- All node `total_size` values in a subtree (this node and, fuel
permitting, every descendant). -/
def Node.allSizes : Nat → Node K V → List Nat
  | 0, _ => []
  | fuel+1, n =>
    n.total_size ::
      (n.pivots.map fun p =>
        match p.2.child with
        | some c => Node.allSizes fuel c
        | none => []).flatten

/-- The reference ordered map of the test harness and of §8.1 of the spec:
insert replaces, erase removes, update appends through the combiner,
starting from the default value when the key is absent. -/
abbrev RefMap (K V : Type) := List (K × V)

def refInsert (k : K) (v : V) : RefMap K V → RefMap K V
  | [] => [(k, v)]
  | e :: rest =>
    if k < e.1 then (k, v) :: e :: rest
    else if k = e.1 then (k, v) :: rest
    else e :: refInsert k v rest

def refErase (k : K) : RefMap K V → RefMap K V
  | [] => []
  | e :: rest => if e.1 = k then rest else e :: refErase k rest

def refLookup (k : K) : RefMap K V → Option V
  | [] => none
  | e :: rest => if e.1 = k then some e.2 else refLookup k rest

def refUpdate [Add V] (dv : V) (k : K) (v : V) (m : RefMap K V) : RefMap K V :=
  match refLookup k m with
  | some w => refInsert k (w + v) m
  | none => refInsert k (dv + v) m

def refStep [Add V] (dv : V) (m : RefMap K V) : TOp K V C → RefMap K V
  | .ins k v => refInsert k v m
  | .upd k v => refUpdate dv k v m
  | .del k => refErase k m
  | .cacheOp _ => m

def refRun [Add V] (dv : V) (m : RefMap K V) (ops : List (TOp K V C)) : RefMap K V :=
  ops.foldl (refStep dv) m

end BeTree

namespace LruCM

/-!
Model of `lru_cache_manager` (cache_manager.cpp).  References are object
ids.  The attributes the manager queries through the
`reference_to_cacheable_object` interface — `is_pinned`, `is_dirty`,
`get_write_unit_ref` — live outside the manager (in the swap-space objects)
and may be changed arbitrarily between notifications; `clean()` makes the
object non-dirty.  The manager's own state is the ordered set
`cache` (ordered by the per-object `access_info`), the size bound, the
update interval and the access counter.
-/

/-- The object attributes the manager can query or mutate via callbacks. -/
structure ObjEnv : Type where
  pinnedIds : List Nat
  dirtyIds : List Nat
  wuMap : List (Nat × Nat)

/-- `get_write_unit_ref`: an object's write unit, the object itself when no
other unit is registered (as in `base_object`, where it always returns
`*this`). -/
def ObjEnv.wu (env : ObjEnv) (i : Nat) : Nat :=
  match env.wuMap.lookup i with
  | some w => w
  | none => i

def ObjEnv.isPinned (env : ObjEnv) (i : Nat) : Bool := env.pinnedIds.contains i

def ObjEnv.isDirty (env : ObjEnv) (i : Nat) : Bool := env.dirtyIds.contains i

/-- The `clean()` callback: the object is written back and becomes clean. -/
def ObjEnv.clean (env : ObjEnv) (i : Nat) : ObjEnv :=
  ⟨env.pinnedIds, env.dirtyIds.filter (fun j => ¬ j = i), env.wuMap⟩

/-- Manager state: `cache` holds `(id, access_info)` pairs sorted by
access info (the `std::set` ordered by `compare_reference_by_access_time`),
`acc` is each object's current `access_info` field. -/
structure LruSt : Type where
  cache : List (Nat × Nat)
  acc : List (Nat × Nat)
  maxObjs : Nat
  interval : Nat
  nextAccess : Nat

/-- `lru_cache_manager(cache_size)`. -/
def lruInit (sz : Nat) : LruSt :=
  ⟨[], [], sz, sz / 100, sz / 100 + 1⟩

def LruSt.getAcc (st : LruSt) (i : Nat) : Nat :=
  match st.acc.lookup i with
  | some a => a
  | none => 0

def LruSt.setAcc (st : LruSt) (i a : Nat) : LruSt :=
  ⟨st.cache, (i, a) :: st.acc.filter (fun e => ¬ e.1 = i), st.maxObjs, st.interval,
   st.nextAccess⟩

/-- `cache.insert(&ref)` on the access-ordered `std::set`: inserted at the
position given by its access info; an element with an *equal* access info is
`std::set`-equivalent, so the insertion is rejected. -/
def cacheInsert (i ai : Nat) : List (Nat × Nat) → List (Nat × Nat)
  | [] => [(i, ai)]
  | e :: rest =>
    if ai < e.2 then (i, ai) :: e :: rest
    else if ai = e.2 then e :: rest
    else e :: cacheInsert i ai rest

/-- `cache.erase(&ref)`: removes the element `std::set`-equivalent to the
reference, i.e. the one whose access info equals the reference's current
access info. -/
def cacheEraseAI (ai : Nat) : List (Nat × Nat) → List (Nat × Nat)
  | [] => []
  | e :: rest => if e.2 = ai then rest else e :: cacheEraseAI ai rest

/-- The victim scan of `maybe_evict_something`: the first reference in access
order that is not pinned and whose write unit, when distinct from the
reference itself, is not dirty. -/
def findVictim (env : ObjEnv) : List (Nat × Nat) → Option Nat
  | [] => none
  | e :: rest =>
    if env.isPinned e.1 then findVictim env rest
    else if ¬ env.wu e.1 = e.1 ∧ env.isDirty (env.wu e.1) then findVictim env rest
    else some e.1

/-- One record per eviction: the evicted id, whether it was pinned, and
whether it was dirty, both sampled at the moment `evict()` runs (i.e. after
the optional `clean()`). -/
abbrev EvictLog := List (Nat × Bool × Bool)

/-- `maybe_evict_something`.  Fuel bounds the loop; each iteration either
returns or removes the victim from the cache, so `cache.length + 1` fuel
always suffices (exhaustion simply stops the loop, which cannot happen when
called with that much fuel). -/
def maybeEvict (env : ObjEnv) : Nat → LruSt → EvictLog → (ObjEnv × LruSt × EvictLog)
  | 0, st, log => (env, st, log)
  | fuel+1, st, log =>
    if st.cache.length ≤ st.maxObjs then (env, st, log)
    else
      match findVictim env st.cache with
      | none => (env, st, log)
      | some v =>
        let env' := if env.isDirty v then env.clean v else env
        let log' := (v, env'.isPinned v, env'.isDirty v) :: log
        let st' : LruSt :=
          ⟨cacheEraseAI (st.getAcc v) st.cache, st.acc, st.maxObjs, st.interval,
           st.nextAccess⟩
        maybeEvict env' fuel st' log'

/-- `note_birth_or_load`: stamp a fresh access time, insert, evict if over
budget. -/
def noteBirthOrLoad (env : ObjEnv) (st : LruSt) (log : EvictLog) (i : Nat) :
    (ObjEnv × LruSt × EvictLog) :=
  let st1 := st.setAcc i st.nextAccess
  let st2 : LruSt :=
    ⟨cacheInsert i st1.nextAccess st1.cache, st1.acc, st1.maxObjs, st1.interval,
     st1.nextAccess + 1⟩
  maybeEvict env (st2.cache.length + 1) st2 log

/-- `note_read_or_write`: refresh the access stamp (and the write unit's)
when it is older than the update interval. -/
def noteReadOrWrite (env : ObjEnv) (st : LruSt) (i : Nat) : LruSt :=
  let w := env.wu i
  let ruai := st.getAcc i
  if st.interval < st.nextAccess - ruai then
    let st1 : LruSt :=
      ⟨cacheEraseAI ruai st.cache, st.acc, st.maxObjs, st.interval, st.nextAccess⟩
    let st2 := st1.setAcc i st1.nextAccess
    let st3 : LruSt :=
      ⟨cacheInsert i st2.nextAccess st2.cache, st2.acc, st2.maxObjs, st2.interval,
       st2.nextAccess + 1⟩
    if ¬ w = i then
      let st4 : LruSt :=
        ⟨cacheEraseAI (st3.getAcc w) st3.cache, st3.acc, st3.maxObjs, st3.interval,
         st3.nextAccess⟩
      let st5 := st4.setAcc w (st4.getAcc i)
      ⟨cacheInsert w (st5.getAcc w) st5.cache, st5.acc, st5.maxObjs, st5.interval,
       st5.nextAccess⟩
    else st3
  else st

/-- The manager's external interface, plus the environment changes the host
may perform between notifications (pinning/unpinning, dirtying through
writes, registering a write unit). -/
inductive CMEvent : Type where
  | birth : Nat → CMEvent
  | load : Nat → CMEvent
  | read : Nat → CMEvent
  | write : Nat → CMEvent
  | cleanNote : Nat → CMEvent
  | evictNote : Nat → CMEvent
  | death : Nat → CMEvent
  | setCacheSize : Nat → CMEvent
  | pinSet : Nat → Bool → CMEvent
  | dirtySet : Nat → Bool → CMEvent
  | wuSet : Nat → Nat → CMEvent

def cmStep (s : ObjEnv × LruSt × EvictLog) (ev : CMEvent) : ObjEnv × LruSt × EvictLog :=
  let env := s.1
  let st := s.2.1
  let log := s.2.2
  match ev with
  | .birth i => noteBirthOrLoad env st log i
  | .load i => noteBirthOrLoad env st log i
  | .read i => (env, noteReadOrWrite env st i, log)
  | .write i => (env, noteReadOrWrite env st i, log)
  | .cleanNote _ => (env, st, log)
  | .evictNote i =>
    (env, ⟨cacheEraseAI (st.getAcc i) st.cache, st.acc, st.maxObjs, st.interval,
           st.nextAccess⟩, log)
  | .death i =>
    (env, ⟨cacheEraseAI (st.getAcc i) st.cache, st.acc, st.maxObjs, st.interval,
           st.nextAccess⟩, log)
  | .setCacheSize n =>
    let st1 : LruSt := ⟨st.cache, st.acc, n, st.interval, st.nextAccess⟩
    maybeEvict env (st1.cache.length + 1) st1 log
  | .pinSet i b =>
    (⟨if b then i :: env.pinnedIds else env.pinnedIds.filter (fun j => ¬ j = i),
      env.dirtyIds, env.wuMap⟩, st, log)
  | .dirtySet i b =>
    (⟨env.pinnedIds,
      if b then i :: env.dirtyIds else env.dirtyIds.filter (fun j => ¬ j = i),
      env.wuMap⟩, st, log)
  | .wuSet i w => (⟨env.pinnedIds, env.dirtyIds, (i, w) :: env.wuMap⟩, st, log)

/-- Run the manager from construction over any sequence of events. -/
def cmRun (sz : Nat) (evs : List CMEvent) : ObjEnv × LruSt × EvictLog :=
  evs.foldl cmStep (⟨[], [], []⟩, lruInit sz, [])

end LruCM

namespace BeTree

/-!  Concrete instantiations used for evaluations: `Nat` keys, `Nat` or
`String` values (the test harness uses `uint64_t` keys and `std::string`
values with `operator+` as concatenation). -/

variable {K : Type} [LinearOrder K] {V : Type}

instance : Add String := ⟨String.append⟩

abbrev NOp := TOp Nat Nat FlagSt

abbrev SOp := TOp Nat String FlagSt

/-- A fuel that is ample for every run considered in this file (the runs
finish with almost all of it left; running out would surface as
`.error .fuelOut`, which the stated results exclude). -/
def bigFuel : Nat := 1000

/-- Run a list of operations against a freshly constructed tree (`Nat`
values), with the given node-size parameters, under the concrete flag cache
(nothing is cleaned during an operation; `cacheOp` steps model host cache
activity between operations). -/
def runN (maxNS minFS : Nat) (ops : List NOp) : Except BErr (BTree Nat Nat FlagSt) :=
  runOps flagCM bigFuel (mkTree flagCM ⟨[], []⟩ maxNS minFS 0) ops

/-- Same with `String` values and `default_value = ""`. -/
def runS (maxNS minFS : Nat) (ops : List SOp) : Except BErr (BTree Nat String FlagSt) :=
  runOps flagCM bigFuel (mkTree flagCM ⟨[], []⟩ maxNS minFS "") ops

/-- The cached `child_size` of the pivot at `k` together with the actual
`total_size()` of the child stored there. -/
def cachedAndReal (n : Node K V) (k : K) : Option (Nat × Nat) :=
  match pmLookup k n.pivots with
  | some ci =>
    match ci.child with
    | some c => some (ci.childSize, c.total_size)
    | none => none
  | none => none

/-- Insertions of the keys 1..6 (values irrelevant). -/
def c2ops : List NOp := [.ins 1 1, .ins 2 2, .ins 3 3, .ins 4 4, .ins 5 5, .ins 6 6]

/-- A two-pivot interior node whose children are the singleton leaves below:
the shape produced by a root split, with both cached child sizes accurate. -/
def c5childA : Node Nat Nat := ⟨2, 0, [(10, ⟨none, 0, [(⟨10, 1⟩, ⟨.INSERT, 100⟩)]⟩)]⟩

def c5childB : Node Nat Nat := ⟨3, 0, [(20, ⟨none, 0, [(⟨20, 2⟩, ⟨.INSERT, 200⟩)]⟩)]⟩

def c5node : Node Nat Nat :=
  ⟨1, 1, [(10, ⟨some c5childA, 2, []⟩), (20, ⟨some c5childB, 2, []⟩)]⟩

/-- Incoming messages spanning both pivots of `c5node`; the batch for the
second pivot is larger, so the flush loop selects the second child. -/
def c5elts : MsgMap Nat Nat :=
  [(⟨10, 3⟩, ⟨.INSERT, 101⟩), (⟨20, 4⟩, ⟨.INSERT, 201⟩), (⟨21, 5⟩, ⟨.INSERT, 210⟩)]

/-- The mutation sequence, with host cache activity between operations, that
drives the dirty-child fast path onto a pivot whose local buffer is
non-empty: after `ins 65` the interior node with object id 14 holds a
buffered message under its pivot 60 while that pivot's child (id 12) is
dirty, and `ins 66` then enters the fast path there.  The `cacheOp` steps
are host-triggerable: a full `set_cache_size(0)`/restore after the sixth
insert, and after the eighth a cleaning of exactly the two objects 13 and 14
(the least recently used unpinned ones once the host has touched the others,
e.g. via two queries; ids 10-12 remain dirty in memory). -/
def c6ops : List NOp :=
  [.ins 10 1, .ins 20 2, .ins 30 3, .ins 40 4, .ins 50 5, .ins 60 6,
   .cacheOp flagCleanAll, .ins 70 7,
   .cacheOp (flagCleanIds [13, 14]),
   .ins 42 8, .ins 55 9, .ins 65 10, .ins 66 11]

/-- A fresh (empty) leaf with object id 1. -/
def c7leaf : Node Nat Nat := ⟨1, 0, []⟩

/-- Six inserts for distinct keys, all landing in the single seeded pivot of
an empty leaf. -/
def c7elts : MsgMap Nat Nat :=
  [(⟨1, 1⟩, ⟨.INSERT, 1⟩), (⟨2, 2⟩, ⟨.INSERT, 2⟩), (⟨3, 3⟩, ⟨.INSERT, 3⟩),
   (⟨4, 4⟩, ⟨.INSERT, 4⟩), (⟨5, 5⟩, ⟨.INSERT, 5⟩), (⟨6, 6⟩, ⟨.INSERT, 6⟩)]

/-- The full result of the C7 counterexample flush call. -/
def c7flushRes : Except BErr (Node Nat Nat × List (Nat × ChildInfo Nat Nat) × SwapSt FlagSt) :=
  flush flagCM 1 100 0 bigFuel ⟨⟨[], []⟩, 2⟩ c7leaf c7elts

/-- The leaf returned by the C7 counterexample flush call. -/
def c7resNode : Node Nat Nat :=
  match c7flushRes with
  | .ok r => r.1
  | .error _ => c7leaf

def c7resSplit : List (Nat × ChildInfo Nat Nat) :=
  match c7flushRes with
  | .ok r => r.2.1
  | .error _ => []

def c7resSt : SwapSt FlagSt :=
  match c7flushRes with
  | .ok r => r.2.2
  | .error _ => ⟨⟨[], []⟩, 2⟩

/-- A run with a single mutation, for querying below every mutated key. -/
def c10ops : List NOp := [.ins 5 7]

def c10runRes : Except BErr (BTree Nat Nat FlagSt) := runN 16 4 c10ops

/-- The tree produced by the single-insert run. -/
def c10tree : BTree Nat Nat FlagSt :=
  match c10runRes with
  | .ok t => t
  | .error _ => mkTree flagCM ⟨[], []⟩ 16 4 0

/-- The tree of scenario S2: two updates on the never-inserted key 7. -/
def c3tree : BTree Nat String FlagSt :=
  match runS 16 4 [.upd 7 "x", .upd 7 "y"] with
  | .ok t => t
  | .error _ => mkTree flagCM ⟨[], []⟩ 16 4 ""

/-- The last-erased variant of scenario S2: insert key 7, erase it, then
the two updates. -/
def c3treeB : BTree Nat String FlagSt :=
  match runS 16 4 [.ins 7 "a", .del 7, .upd 7 "x", .upd 7 "y"] with
  | .ok t => t
  | .error _ => mkTree flagCM ⟨[], []⟩ 16 4 ""

/-- The dirty-child world of `c6ops` just before its final insert: key 66
was never passed to any operation, and the interior node with object id 14
holds the buffered message 65 under pivot 60 while that pivot's child
(id 12) is dirty. -/
def c3crashPrefix : List NOp :=
  [.ins 10 1, .ins 20 2, .ins 30 3, .ins 40 4, .ins 50 5, .ins 60 6,
   .cacheOp flagCleanAll, .ins 70 7,
   .cacheOp (flagCleanIds [13, 14]),
   .ins 42 8, .ins 55 9, .ins 65 10]

/-- That world followed by a single update on the value-less key 66. -/
def c3crashOps : List NOp := c3crashPrefix ++ [.upd 66 11]

/-- A leaf storing key 5, used as the child under the pivot of `c4node`. -/
def c4child : Node Nat Nat := ⟨2, 0, [(5, ⟨none, 0, [(⟨5, 1⟩, ⟨.INSERT, 9⟩)]⟩)]⟩

/-- A pivot record whose buffer holds exactly one message for key 5 — a
DELETE — over a child that stores key 5. -/
def c4ci : ChildInfo Nat Nat := ⟨some c4child, 2, [(⟨5, 2⟩, ⟨.DELETE, 0⟩)]⟩

/-- An interior node (height 1) with the single pivot above. -/
def c4node : Node Nat Nat := ⟨1, 1, [(5, c4ci)]⟩

/-- A run exercising the three leaf conversions (INSERT stored, UPDATE
collapsed, DELETE purged), for the leaf-invariant witness. -/
def c9ops : List NOp := [.ins 5 1, .upd 5 2, .del 5, .upd 5 3]

def c9tree : BTree Nat Nat FlagSt :=
  match runN 16 4 c9ops with
  | .ok t => t
  | .error _ => mkTree flagCM ⟨[], []⟩ 16 4 0

/-- Every pivot key and every buffered message key in the subtree satisfies
`S`.  Used to show that all keys in the tree originate from mutations. -/
inductive NodeKeysIn (S : K → Prop) : Node K V → Prop where
  | mk : ∀ (nid h : Nat) (pv : List (K × ChildInfo K V)),
      (∀ p ∈ pv, S p.1) →
      (∀ p ∈ pv, ∀ e ∈ p.2.elements, S e.1.key) →
      (∀ p ∈ pv, ∀ c, p.2.child = some c → NodeKeysIn S c) →
      NodeKeysIn S ⟨nid, h, pv⟩

/-- The pivot-map form of `NodeKeysIn`. -/
def PivotsKeysIn (S : K → Prop) (pv : List (K × ChildInfo K V)) : Prop :=
  (∀ p ∈ pv, S p.1) ∧
  (∀ p ∈ pv, ∀ e ∈ p.2.elements, S e.1.key) ∧
  (∀ p ∈ pv, ∀ c, p.2.child = some c → NodeKeysIn S c)

/-- The keys passed to the mutating operations of a sequence (cache events
carry no key). -/
def mutKeys : List (TOp K V C) → List K
  | [] => []
  | .ins k _ :: rest => k :: mutKeys rest
  | .upd k _ :: rest => k :: mutKeys rest
  | .del k :: rest => k :: mutKeys rest
  | .cacheOp _ :: rest => mutKeys rest

/-- The leaf-buffer shape: every buffered message is an INSERT and no two
messages share a user key. -/
def LeafBufOK (es : MsgMap K V) : Prop :=
  (∀ e ∈ es, e.2.opcode = Opcode.INSERT) ∧
  es.Pairwise (fun a b => ¬ a.1.key = b.1.key)

/-- Every leaf in the subtree satisfies `LeafBufOK` on each of its per-pivot
buffers. -/
inductive LeafInv : Node K V → Prop where
  | mk : ∀ (nid h : Nat) (pv : List (K × ChildInfo K V)),
      (h = 0 → ∀ p ∈ pv, LeafBufOK p.2.elements) →
      (∀ p ∈ pv, ∀ c, p.2.child = some c → LeafInv c) →
      LeafInv ⟨nid, h, pv⟩

/-- The pivot-map form of `LeafInv` at a node of the given height. -/
def PivotsLeafOK (h : Nat) (pv : List (K × ChildInfo K V)) : Prop :=
  (h = 0 → ∀ p ∈ pv, LeafBufOK p.2.elements) ∧
  (∀ p ∈ pv, ∀ c, p.2.child = some c → LeafInv c)

/-- The shape of a `split` result absorbed by the caller: fresh empty
buffers over well-formed children. -/
def SplitResOK (res : List (K × ChildInfo K V)) : Prop :=
  (∀ p ∈ res, p.2.elements = ([] : MsgMap K V)) ∧
  (∀ p ∈ res, ∀ c, p.2.child = some c → LeafInv c)

/-- Largest per-pivot buffer size of a pivot list. -/
def maxBufLen (pv : List (K × ChildInfo K V)) : Nat :=
  (pv.map fun p => p.2.elements.length).foldr max 0

/-- Total number of buffered messages in a pivot list. -/
def msgCount (pv : List (K × ChildInfo K V)) : Nat :=
  (pv.map fun p => p.2.elements.length).sum

end BeTree

namespace LruCM

theorem findVictim_not_pinned (env : ObjEnv) (l : List (Nat × Nat)) (v : Nat)
    (h : findVictim env l = some v) : env.isPinned v = false := by
  induction l with
  | nil => simp [findVictim] at h
  | cons e rest ih =>
    by_cases hp : env.isPinned e.1
    · rw [findVictim, if_pos hp] at h
      exact ih h
    · rw [findVictim, if_neg hp] at h
      by_cases hw : ¬ env.wu e.1 = e.1 ∧ env.isDirty (env.wu e.1)
      · rw [if_pos hw] at h
        exact ih h
      · rw [if_neg hw] at h
        cases h
        simpa using hp

theorem isPinned_clean (env : ObjEnv) (i v : Nat) :
    (env.clean i).isPinned v = env.isPinned v := rfl

theorem isDirty_clean_self (env : ObjEnv) (v : Nat) :
    (env.clean v).isDirty v = false := by
  simp [ObjEnv.clean, ObjEnv.isDirty, List.elem_eq_mem, List.mem_filter]

theorem maybeEvict_log_safe (fuel : Nat) :
    ∀ (env : ObjEnv) (st : LruSt) (log : EvictLog),
      ∀ e ∈ (maybeEvict env fuel st log).2.2,
        e ∈ log ∨ (e.2.1 = false ∧ e.2.2 = false) := by
  induction fuel with
  | zero => intro env st log e he; exact Or.inl he
  | succ fuel ih =>
    intro env st log e he
    rw [maybeEvict] at he
    by_cases hle : st.cache.length ≤ st.maxObjs
    · rw [if_pos hle] at he
      exact Or.inl he
    · rw [if_neg hle] at he
      cases hv : findVictim env st.cache with
      | none => rw [hv] at he; exact Or.inl he
      | some v =>
        rw [hv] at he
        have hnp := findVictim_not_pinned env st.cache v hv
        rcases ih _ _ _ e he with hin | hok
        · rcases List.mem_cons.mp hin with heq | hold
          · subst heq
            refine Or.inr ?_
            cases hd : env.isDirty v with
            | true =>
              simp only [hd, if_true]
              exact ⟨by rw [isPinned_clean]; exact hnp, isDirty_clean_self env v⟩
            | false =>
              simp only [hd, Bool.false_eq_true, if_false]
              exact ⟨hnp, trivial⟩
          · exact Or.inl hold
        · exact Or.inr hok

theorem cmStep_log_safe (s : ObjEnv × LruSt × EvictLog) (ev : CMEvent)
    (h : ∀ e ∈ s.2.2, e.2.1 = false ∧ e.2.2 = false) :
    ∀ e ∈ (cmStep s ev).2.2, e.2.1 = false ∧ e.2.2 = false := by
  intro e he
  cases ev with
  | birth i =>
    rcases maybeEvict_log_safe _ _ _ _ e he with hin | hok
    · exact h e hin
    · exact hok
  | load i =>
    rcases maybeEvict_log_safe _ _ _ _ e he with hin | hok
    · exact h e hin
    · exact hok
  | setCacheSize n =>
    rcases maybeEvict_log_safe _ _ _ _ e he with hin | hok
    · exact h e hin
    · exact hok
  | read i => exact h e he
  | write i => exact h e he
  | cleanNote i => exact h e he
  | evictNote i => exact h e he
  | death i => exact h e he
  | pinSet i b => exact h e he
  | dirtySet i b => exact h e he
  | wuSet i w => exact h e he

theorem cmFold_log_safe (evs : List CMEvent) :
    ∀ (s : ObjEnv × LruSt × EvictLog),
      (∀ e ∈ s.2.2, e.2.1 = false ∧ e.2.2 = false) →
      ∀ e ∈ (evs.foldl cmStep s).2.2, e.2.1 = false ∧ e.2.2 = false := by
  induction evs with
  | nil => intro s h; exact h
  | cons ev rest ih =>
    intro s h
    exact ih (cmStep s ev) (cmStep_log_safe s ev h)

/-- C8: for every sequence of cache-manager notifications, host attribute
changes, and cache-size settings, every object the LRU cache manager evicts
is unpinned and clean at the moment of eviction (the victim scan skips
pinned references and references with a dirty distinct write unit, and a
dirty victim is cleaned before being evicted). -/
theorem lru_eviction_unpinned_clean (sz : Nat) (evs : List CMEvent) :
    ∀ e ∈ (cmRun sz evs).2.2, e.2.1 = false ∧ e.2.2 = false := by
  intro e he
  exact cmFold_log_safe evs _ (by intro x hx; cases hx) e he

/-- Witness for C8: a concrete run whose eviction log is non-empty, with
the theorem applied to its entry. -/
theorem lru_eviction_unpinned_clean_witness :
    ((1, false, false) ∈ (cmRun 1 [.birth 1, .birth 2]).2.2) ∧
    (((1, false, false) : Nat × Bool × Bool).2.1 = false ∧
     ((1, false, false) : Nat × Bool × Bool).2.2 = false) :=
  ⟨by decide, lru_eviction_unpinned_clean 1 [.birth 1, .birth 2] (1, false, false) (by decide)⟩

end LruCM

namespace BeTree

variable {K : Type} [LinearOrder K] {V : Type}

/-- C2 (code_bug evaluation): with `max_node_size = 4`, `min_flush_size = 1`
and a cache large enough that every node stays dirty from birth (the flag
cache with no cleaning), inserting the keys 1..6 into a fresh tree returns
normally but leaves the root with `total_size() = 5 > 4`: the dirty-child
fast path of `flush` absorbs child splits without ever checking this node's
own size, contradicting the source comment that every flush restores the
max-size invariant on return. -/
theorem c2_size_bound_violated :
    (runN 4 1 c2ops).map (fun t => (t.root.total_size, t.maxNodeSize)) =
      .ok (5, 4) := by rfl

/-- C5 (code_bug evaluation): flushing `c5elts` (smallest key under pivot 10,
largest buffer under pivot 20) into `c5node` makes the loop flush the child
under pivot 20, which does not split; the code then writes that child's new
`total_size() = 3` into the `child_size` of pivot 10 (`first_pivot_idx`)
whose own child still has size 2, while pivot 20 keeps its stale cached
size 2 although its child now has size 3. -/
theorem c5_wrong_pivot_size_updated :
    (flush flagCM 1 5 0 bigFuel ⟨⟨[], []⟩, 4⟩ c5node c5elts).map
      (fun r => (cachedAndReal r.1 10, cachedAndReal r.1 20)) =
      .ok (some (3, 2), some (2, 3)) := by rfl

/-- C6 (code_bug evaluation): the mutation sequence `c6ops`, with the two
host cache events described there, drives `flush` into the dirty-child fast
path at a pivot whose buffer is non-empty, and the
`assert(first_pivot_idx->second.elements.size() == 0)` fails (the run does
not return). -/
theorem c6_empty_buffer_assert_fails :
    runN 5 1 c6ops = .error .assertEmptyBuf := by rfl

theorem purge_length_le (k : K) (es : MsgMap K V) : (purge k es).length ≤ es.length :=
  List.length_filter_le _ _

theorem mmAssign_length_le (mk : MKey K) (m : Msg V) (es : MsgMap K V) :
    (mmAssign mk m es).length ≤ es.length + 1 := by
  induction es with
  | nil => simp [mmAssign]
  | cons e rest ih =>
    unfold mmAssign
    split
    · simp
    · split
      · simp
      · simpa using Nat.succ_le_succ ih

theorem applyToElements_length_le [Add V] (isLeaf : Bool) (dv : V) (mk : MKey K)
    (m : Msg V) (es : MsgMap K V) :
    (applyToElements isLeaf dv mk m es).length ≤ es.length + 1 := by
  have hp := purge_length_le mk.key es
  unfold applyToElements
  split
  · exact le_trans (mmAssign_length_le _ _ _) (by omega)
  · split
    · exact le_trans hp (by omega)
    · exact le_trans (mmAssign_length_le _ _ _) (by omega)
  · split
    · split
      · exact le_trans (mmAssign_length_le _ _ _) (by omega)
      · exact mmAssign_length_le _ _ _
    · split
      · exact le_trans (mmAssign_length_le _ _ _) (by omega)
      · exact mmAssign_length_le _ _ _

theorem msgCount_updateLE (k : K) (f : ChildInfo K V → ChildInfo K V)
    (hf : ∀ ci, (f ci).elements.length ≤ ci.elements.length + 1) :
    ∀ pv : List (K × ChildInfo K V), msgCount (updateLE k f pv) ≤ msgCount pv + 1 := by
  intro pv
  induction pv with
  | nil => simp [updateLE, msgCount]
  | cons e rest ih =>
    unfold updateLE
    split
    · split
      · simpa [msgCount] using hf e.2
      · simp [msgCount]
    · split
      · simp only [msgCount, List.map_cons, List.sum_cons] at ih ⊢
        omega
      · split
        · have := hf e.2
          simp only [msgCount, List.map_cons, List.sum_cons]
          omega
        · simp [msgCount]

theorem msgCount_applyMsg [Add V] (dv : V) (n n' : Node K V) (mk : MKey K) (m : Msg V)
    (h : n.applyMsg dv mk m = .ok n') : msgCount n'.pivots ≤ msgCount n.pivots + 1 := by
  unfold Node.applyMsg at h
  split at h
  · cases h
  · cases h
  · cases h
    exact msgCount_updateLE mk.key
      (fun ci => ChildInfo.mk ci.child ci.childSize
        (applyToElements n.is_leaf dv mk m ci.elements))
      (fun ci => applyToElements_length_le n.is_leaf dv mk m ci.elements) n.pivots

theorem msgCount_applyFold [Add V] (dv : V) (elts : MsgMap K V) :
    ∀ (n n' : Node K V),
      elts.foldlM (fun nn e => Node.applyMsg dv nn e.1 e.2) n = .ok n' →
      msgCount n'.pivots ≤ msgCount n.pivots + elts.length := by
  induction elts with
  | nil => intro n n' h; cases h; simp
  | cons e rest ih =>
    intro n n' h
    rw [List.foldlM_cons] at h
    cases ha : Node.applyMsg dv n e.1 e.2 with
    | error er => rw [ha] at h; cases h
    | ok n1 =>
      rw [ha] at h
      have h1 := msgCount_applyMsg dv n n1 e.1 e.2 ha
      have h2 := ih n1 n' h
      simp only [List.length_cons]
      omega

omit [LinearOrder K] in
theorem maxBufLen_le_msgCount (pv : List (K × ChildInfo K V)) :
    maxBufLen pv ≤ msgCount pv := by
  induction pv with
  | nil => simp [maxBufLen, msgCount]
  | cons e rest ih =>
    simp only [maxBufLen, msgCount, List.map_cons, List.foldr_cons, List.sum_cons] at ih ⊢
    omega

omit [LinearOrder K] in
theorem maxBufLen_cons (k : K) (ci : ChildInfo K V) (rest : List (K × ChildInfo K V)) :
    maxBufLen ((k, ci) :: rest) = max ci.elements.length (maxBufLen rest) := rfl

theorem rebalance_bound (m : Nat) :
    ∀ (fuel : Nat) (pv pv' : List (K × ChildInfo K V)),
      rebalancePivots m fuel pv = .ok pv' →
      ∀ e ∈ pv', e.2.elements.length ≤ max (2 * m) ((maxBufLen pv + 1) / 2) := by
  intro fuel
  induction fuel with
  | zero => intro pv pv' h; cases pv <;> cases h
  | succ fuel ih =>
    intro pv pv' h
    cases pv with
    | nil => cases h; intro e he; cases he
    | cons p rest =>
      obtain ⟨k, cch, csz, ces⟩ := p
      rw [rebalancePivots] at h
      simp only [ChildInfo.elements] at h
      rw [maxBufLen_cons]
      simp only [ChildInfo.elements]
      by_cases hlen : ces.length > 2 * m
      · rw [if_pos hlen] at h
        split at h
        next hdrop =>
          exfalso
          have := List.drop_eq_nil_iff.mp hdrop
          omega
        next e0 hirest hdrop =>
          have hhilen : (e0 :: hirest).length = ces.length - ces.length / 2 := by
            rw [← hdrop, List.length_drop]
          by_cases hk : e0.1.key = k
          · rw [if_pos hk] at h
            cases hr : rebalancePivots m fuel rest with
            | error er => rw [hr] at h; cases h
            | ok r =>
              rw [hr] at h
              cases h
              intro e he
              rcases List.mem_cons.mp he with heq | hmem
              · subst heq
                simp only [ChildInfo.elements]
                refine le_trans ?_ (le_max_right (2 * m) _)
                have hb : ces.length ≤ max ces.length (maxBufLen rest) := le_max_left _ _
                omega
              · refine le_trans (ih rest r hr e hmem) ?_
                gcongr
                exact le_max_right _ _
          · rw [if_neg hk] at h
            cases hr : rebalancePivots m fuel
                ((e0.1.key, (⟨none, 0, e0 :: hirest⟩ : ChildInfo K V)) :: rest) with
            | error er => rw [hr] at h; cases h
            | ok r =>
              rw [hr] at h
              cases h
              intro e he
              rcases List.mem_cons.mp he with heq | hmem
              · subst heq
                simp only [ChildInfo.elements]
                refine le_trans ?_ (le_max_right (2 * m) _)
                rw [List.length_take]
                have hb : ces.length ≤ max ces.length (maxBufLen rest) := le_max_left _ _
                omega
              · refine le_trans (ih _ r hr e hmem) ?_
                rw [maxBufLen_cons]
                simp only [ChildInfo.elements]
                gcongr
                rw [hhilen]
                omega
      · rw [if_neg hlen] at h
        cases hr : rebalancePivots m fuel rest with
        | error er => rw [hr] at h; cases h
        | ok r =>
          rw [hr] at h
          cases h
          intro e he
          rcases List.mem_cons.mp he with heq | hmem
          · subst heq
            refine le_trans ?_ (le_max_left (2 * m) _)
            simp only [ChildInfo.elements]
            omega
          · refine le_trans (ih rest r hr e hmem) ?_
            gcongr
            exact le_max_right _ _

omit [LinearOrder K] in
theorem msgCount_cons (k : K) (ci : ChildInfo K V) (rest : List (K × ChildInfo K V)) :
    msgCount ((k, ci) :: rest) = ci.elements.length + msgCount rest := rfl

theorem exceptOkBind {ε α β : Type} (a : α) (f : α → Except ε β) :
    (Except.ok a >>= f : Except ε β) = f a := rfl

theorem msgCount_seedPivots (k0 : K) (pv : List (K × ChildInfo K V)) :
    msgCount (seedPivots k0 pv) = msgCount pv := by
  unfold seedPivots
  split
  next heq =>
    by_cases hemp : pv.isEmpty = true
    · rw [if_pos hemp] at heq; cases heq
    · rw [if_neg hemp] at heq
      rw [heq]
  next oldmin ci0 prest heq =>
    by_cases hemp : pv.isEmpty = true
    · rw [if_pos hemp] at heq
      have hnil : pv = [] := List.isEmpty_iff.mp hemp
      cases heq
      simp [hnil, msgCount, ChildInfo.empty, ChildInfo.elements, lt_irrefl]
    · rw [if_neg hemp] at heq
      subst heq
      split
      · rw [msgCount_cons, msgCount_cons]
      · rfl

/-- C7 (amended): when the leaf branch of `flush` returns, every per-pivot
buffer of the resulting leaf has size at most
`max (2 * min_flush_size) ((M + 1) / 2)`, where `M` bounds the number of
buffered messages after the incoming ones are applied (the node's previous
message count plus the batch size).  The `2 * min_flush_size` bound alone
does not hold (see the counterexample theorem): a split's lower half is not
revisited. -/
theorem c7_amended_leaf_buffer_bound [Add V] {C : Type} (cm : CacheModel C)
    (minFS maxNS : Nat) (dv : V) (fuel : Nat) (st st' : SwapSt C) (n n' : Node K V)
    (elts : MsgMap K V) (res : List (K × ChildInfo K V))
    (hleaf : n.height = 0) (hne : ¬ elts = [])
    (h : flush cm minFS maxNS dv fuel st n elts = .ok (n', res, st')) :
    ∀ e ∈ n'.pivots,
      e.2.elements.length ≤
        max (2 * minFS) ((msgCount n.pivots + elts.length + 1) / 2) := by
  cases fuel with
  | zero => cases h
  | succ fuel =>
  cases elts with
  | nil => exact absurd rfl hne
  | cons e0 erest =>
  rw [flush] at h
  rw [if_pos hleaf] at h
  cases hfold : (e0 :: erest).foldlM (fun nn e => Node.applyMsg dv nn e.1 e.2)
      (⟨n.id, n.height, seedPivots e0.1.key n.pivots⟩ : Node K V) with
  | error er => rw [hfold] at h; cases h
  | ok n2 =>
  rw [hfold] at h
  rw [exceptOkBind] at h
  cases hreb : rebalancePivots minFS (rebFuel n2.pivots) n2.pivots with
  | error er => rw [hreb] at h; cases h
  | ok rp =>
  rw [hreb] at h
  rw [exceptOkBind] at h
  have hmc : msgCount n2.pivots ≤
      msgCount (seedPivots e0.1.key n.pivots) + (e0 :: erest).length :=
    msgCount_applyFold dv (e0 :: erest) _ n2 hfold
  rw [msgCount_seedPivots] at hmc
  have hbound := rebalance_bound minFS (rebFuel n2.pivots) n2.pivots rp hreb
  have hfinal : ∀ e ∈ rp, e.2.elements.length ≤
      max (2 * minFS) ((msgCount n.pivots + (e0 :: erest).length + 1) / 2) := by
    intro e he
    refine le_trans (hbound e he) ?_
    have h1 : maxBufLen n2.pivots ≤ msgCount n2.pivots := maxBufLen_le_msgCount _
    gcongr
    omega
  by_cases hsp : maxNS ≤ Node.total_size ⟨n2.id, n2.height, rp⟩
  · rw [if_pos hsp] at h
    cases hspl : splitNode cm maxNS st (⟨n2.id, n2.height, rp⟩ : Node K V) with
    | error er => rw [hspl] at h; cases h
    | ok pr =>
      rw [hspl] at h
      cases h
      exact hfinal
  · rw [if_neg hsp] at h
    cases h
    exact hfinal

/-- Witness for the amended C7 theorem at the counterexample input: the
returned buffers have sizes 3, 1, 2, all at most
`max (2 * 1) ((0 + 6 + 1) / 2) = 3`. -/
theorem c7_amended_leaf_buffer_bound_witness :
    c7leaf.height = 0 ∧ ¬ c7elts = [] ∧
    (∀ e ∈ c7resNode.pivots,
      e.2.elements.length ≤ max (2 * 1) ((msgCount c7leaf.pivots + c7elts.length + 1) / 2)) :=
  ⟨rfl, by decide,
    c7_amended_leaf_buffer_bound flagCM 1 100 0 bigFuel ⟨⟨[], []⟩, 2⟩ c7resSt c7leaf
      c7resNode c7elts c7resSplit rfl (by decide) (by rfl)⟩

theorem purge_mem (k : K) (es : MsgMap K V) (e : MKey K × Msg V)
    (h : e ∈ purge k es) : e ∈ es := (List.mem_filter.mp h).1

theorem mmAssign_mem (mk : MKey K) (m : Msg V) (es : MsgMap K V) (e : MKey K × Msg V)
    (h : e ∈ mmAssign mk m es) : e = (mk, m) ∨ e ∈ es := by
  induction es with
  | nil => simpa [mmAssign] using h
  | cons e0 rest ih =>
    unfold mmAssign at h
    split at h
    · rcases List.mem_cons.mp h with h1 | h1
      · exact Or.inl h1
      · exact Or.inr h1
    · split at h
      · rcases List.mem_cons.mp h with h1 | h1
        · exact Or.inl h1
        · exact Or.inr (List.mem_cons_of_mem _ h1)
      · rcases List.mem_cons.mp h with h1 | h1
        · exact Or.inr (h1 ▸ List.mem_cons_self _ _)
        · rcases ih h1 with h2 | h2
          · exact Or.inl h2
          · exact Or.inr (List.mem_cons_of_mem _ h2)

theorem applyToElements_mem [Add V] (isLeaf : Bool) (dv : V) (mk : MKey K)
    (m : Msg V) (es : MsgMap K V) (e : MKey K × Msg V)
    (h : e ∈ applyToElements isLeaf dv mk m es) : e.1.key = mk.key ∨ e ∈ es := by
  unfold applyToElements at h
  split at h
  · rcases mmAssign_mem _ _ _ _ h with h1 | h1
    · exact Or.inl (by rw [h1])
    · exact Or.inr (purge_mem _ _ _ h1)
  · split at h
    · exact Or.inr (purge_mem _ _ _ h)
    · rcases mmAssign_mem _ _ _ _ h with h1 | h1
      · exact Or.inl (by rw [h1])
      · exact Or.inr (purge_mem _ _ _ h1)
  · split at h
    · split at h
      · rcases mmAssign_mem _ _ _ _ h with h1 | h1
        · exact Or.inl (by rw [h1])
        · exact Or.inr (purge_mem _ _ _ h1)
      · rcases mmAssign_mem _ _ _ _ h with h1 | h1
        · exact Or.inl (by rw [h1])
        · exact Or.inr h1
    · split at h
      · rcases mmAssign_mem _ _ _ _ h with h1 | h1
        · exact Or.inl (by rw [h1])
        · exact Or.inr (purge_mem _ _ _ h1)
      · rcases mmAssign_mem _ _ _ _ h with h1 | h1
        · exact Or.inl (by rw [h1])
        · exact Or.inr h1

theorem updateLE_mem (k : K) (f : ChildInfo K V → ChildInfo K V)
    (pv : List (K × ChildInfo K V)) (p : K × ChildInfo K V)
    (h : p ∈ updateLE k f pv) : p ∈ pv ∨ ∃ q ∈ pv, p = (q.1, f q.2) := by
  induction pv with
  | nil => simpa [updateLE] using h
  | cons e rest ih =>
    unfold updateLE at h
    split at h
    · split at h
      · rcases List.mem_cons.mp h with h1 | h1
        · exact Or.inr ⟨e, List.mem_cons_self _ _, h1⟩
        · cases h1
      · exact Or.inl h
    · split at h
      · rcases List.mem_cons.mp h with h1 | h1
        · exact Or.inl (h1 ▸ List.mem_cons_self _ _)
        · rcases ih h1 with h2 | h2
          · exact Or.inl (List.mem_cons_of_mem _ h2)
          · obtain ⟨q, hq, he⟩ := h2
            exact Or.inr ⟨q, List.mem_cons_of_mem _ hq, he⟩
      · split at h
        · rcases List.mem_cons.mp h with h1 | h1
          · exact Or.inr ⟨e, List.mem_cons_self _ _, h1⟩
          · exact Or.inl (List.mem_cons_of_mem _ h1)
        · exact Or.inl h

theorem pmSet_mem (k : K) (ci : ChildInfo K V) (pv : List (K × ChildInfo K V))
    (p : K × ChildInfo K V) (h : p ∈ pmSet k ci pv) : p ∈ pv ∨ p = (k, ci) := by
  induction pv with
  | nil => simpa [pmSet] using h
  | cons e rest ih =>
    unfold pmSet at h
    split at h
    · rcases List.mem_cons.mp h with h1 | h1
      · exact Or.inr h1
      · exact Or.inl (List.mem_cons_of_mem _ h1)
    · rcases List.mem_cons.mp h with h1 | h1
      · exact Or.inl (h1 ▸ List.mem_cons_self _ _)
      · rcases ih h1 with h2 | h2
        · exact Or.inl (List.mem_cons_of_mem _ h2)
        · exact Or.inr h2

theorem pmSetSize_mem (k : K) (s : Nat) (pv : List (K × ChildInfo K V))
    (p : K × ChildInfo K V) (h : p ∈ pmSetSize k s pv) :
    p ∈ pv ∨ ∃ q ∈ pv, p = (q.1, ⟨q.2.child, s, q.2.elements⟩) := by
  induction pv with
  | nil => simpa [pmSetSize] using h
  | cons e rest ih =>
    unfold pmSetSize at h
    split at h
    · rcases List.mem_cons.mp h with h1 | h1
      · exact Or.inr ⟨e, List.mem_cons_self _ _, h1⟩
      · exact Or.inl (List.mem_cons_of_mem _ h1)
    · rcases List.mem_cons.mp h with h1 | h1
      · exact Or.inl (h1 ▸ List.mem_cons_self _ _)
      · rcases ih h1 with h2 | h2
        · exact Or.inl (List.mem_cons_of_mem _ h2)
        · obtain ⟨q, hq, he⟩ := h2
          exact Or.inr ⟨q, List.mem_cons_of_mem _ hq, he⟩

theorem pmErase_mem (k : K) (pv : List (K × ChildInfo K V)) (p : K × ChildInfo K V)
    (h : p ∈ pmErase k pv) : p ∈ pv := by
  induction pv with
  | nil => simpa [pmErase] using h
  | cons e rest ih =>
    unfold pmErase at h
    split at h
    · exact List.mem_cons_of_mem _ h
    · rcases List.mem_cons.mp h with h1 | h1
      · exact h1 ▸ List.mem_cons_self _ _
      · exact List.mem_cons_of_mem _ (ih h1)

theorem pmInsertKeep_mem (k : K) (ci : ChildInfo K V) (pv : List (K × ChildInfo K V))
    (p : K × ChildInfo K V) (h : p ∈ pmInsertKeep k ci pv) : p ∈ pv ∨ p = (k, ci) := by
  induction pv with
  | nil =>
    rcases List.mem_cons.mp h with h1 | h1
    · exact Or.inr h1
    · cases h1
  | cons e rest ih =>
    unfold pmInsertKeep at h
    split at h
    · rcases List.mem_cons.mp h with h1 | h1
      · exact Or.inr h1
      · exact Or.inl h1
    · split at h
      · exact Or.inl h
      · rcases List.mem_cons.mp h with h1 | h1
        · exact Or.inl (h1 ▸ List.mem_cons_self _ _)
        · rcases ih h1 with h2 | h2
          · exact Or.inl (List.mem_cons_of_mem _ h2)
          · exact Or.inr h2

theorem pmInsertAll_mem (new : List (K × ChildInfo K V)) :
    ∀ (pv : List (K × ChildInfo K V)) (p : K × ChildInfo K V),
      p ∈ pmInsertAll pv new → p ∈ pv ∨ p ∈ new := by
  induction new with
  | nil => intro pv p h; exact Or.inl h
  | cons e rest ih =>
    intro pv p h
    rw [pmInsertAll, List.foldl_cons] at h
    rcases ih _ _ h with h1 | h1
    · rcases pmInsertKeep_mem _ _ _ _ h1 with h2 | h2
      · exact Or.inl h2
      · exact Or.inr (h2 ▸ List.mem_cons_self _ _)
    · exact Or.inr (List.mem_cons_of_mem _ h1)

theorem pmLookup_mem (k : K) (pv : List (K × ChildInfo K V)) (ci : ChildInfo K V)
    (h : pmLookup k pv = some ci) : (k, ci) ∈ pv := by
  induction pv with
  | nil => cases h
  | cons e rest ih =>
    obtain ⟨e1, e2⟩ := e
    unfold pmLookup at h
    split at h
    · rename_i heq
      have heq2 : e1 = k := heq
      cases h
      subst heq2
      exact List.mem_cons_self _ _
    · exact List.mem_cons_of_mem _ (ih h)

theorem nodeKeysIn_iff (S : K → Prop) (nid h : Nat) (pv : List (K × ChildInfo K V)) :
    NodeKeysIn S ⟨nid, h, pv⟩ ↔ PivotsKeysIn S pv := by
  constructor
  · intro hn
    cases hn with
    | mk _ _ _ h1 h2 h3 => exact ⟨h1, h2, h3⟩
  · intro hp
    exact NodeKeysIn.mk nid h pv hp.1 hp.2.1 hp.2.2

theorem lookupLE_mem (k : K) (pv : List (K × ChildInfo K V)) (r : K × ChildInfo K V)
    (h : lookupLE k pv = some r) : r ∈ pv := by
  induction pv with
  | nil => cases h
  | cons e rest ih =>
    unfold lookupLE at h
    cases hr : lookupLE k rest with
    | some r2 =>
      rw [hr] at h
      cases h
      exact List.mem_cons_of_mem _ (ih hr)
    | none =>
      rw [hr] at h
      by_cases hle : e.1 ≤ k
      · rw [if_pos hle] at h
        injection h with h2
        exact h2 ▸ List.mem_cons_self _ _
      · rw [if_neg hle] at h
        cases h

theorem getPivot_found_mem (pv : List (K × ChildInfo K V)) (k fk : K)
    (ci : ChildInfo K V) (h : getPivot pv k = .found fk ci) : (fk, ci) ∈ pv := by
  cases pv with
  | nil => cases h
  | cons e rest =>
    rw [getPivot] at h
    by_cases hlt : k < e.1
    · rw [if_pos hlt] at h
      cases h
    · rw [if_neg hlt] at h
      cases hl : lookupLE k (e :: rest) with
      | some r =>
        rw [hl] at h
        cases h
        exact lookupLE_mem _ _ _ hl
      | none => rw [hl] at h; cases h

theorem applyMsg_keysIn [Add V] (S : K → Prop) (dv : V) (n n' : Node K V)
    (mk : MKey K) (m : Msg V) (hS : S mk.key) (hn : NodeKeysIn S n)
    (h : n.applyMsg dv mk m = .ok n') : NodeKeysIn S n' := by
  obtain ⟨nid, nh, pv⟩ := n
  unfold Node.applyMsg at h
  split at h
  · cases h
  · cases h
  · cases h
    rw [nodeKeysIn_iff] at hn ⊢
    obtain ⟨h1, h2, h3⟩ := hn
    refine ⟨?_, ?_, ?_⟩
    · intro p hp
      rcases updateLE_mem _ _ _ _ hp with hm | ⟨q, hq, he⟩
      · exact h1 p hm
      · rw [he]; exact h1 q hq
    · intro p hp e hem
      rcases updateLE_mem _ _ _ _ hp with hm | ⟨q, hq, he⟩
      · exact h2 p hm e hem
      · subst he
        rcases applyToElements_mem _ _ _ _ _ _ hem with hk | hin
        · rw [hk]; exact hS
        · exact h2 q hq e hin
    · intro p hp c hc
      rcases updateLE_mem _ _ _ _ hp with hm | ⟨q, hq, he⟩
      · exact h3 p hm c hc
      · subst he
        exact h3 q hq c hc

theorem applyFold_keysIn [Add V] (S : K → Prop) (dv : V) (elts : MsgMap K V) :
    ∀ (n n' : Node K V),
      (∀ e ∈ elts, S e.1.key) → NodeKeysIn S n →
      elts.foldlM (fun nn e => Node.applyMsg dv nn e.1 e.2) n = .ok n' →
      NodeKeysIn S n' := by
  induction elts with
  | nil => intro n n' _ hn h; cases h; exact hn
  | cons e rest ih =>
    intro n n' hS hn h
    rw [List.foldlM_cons] at h
    cases ha : Node.applyMsg dv n e.1 e.2 with
    | error er => rw [ha] at h; cases h
    | ok n1 =>
      rw [ha] at h
      exact ih n1 n' (fun x hx => hS x (List.mem_cons_of_mem _ hx))
        (applyMsg_keysIn S dv n n1 e.1 e.2 (hS e (List.mem_cons_self _ _)) hn ha) h

theorem rebalance_keysIn (S : K → Prop) (m : Nat) :
    ∀ (fuel : Nat) (pv pv' : List (K × ChildInfo K V)),
      PivotsKeysIn S pv → rebalancePivots m fuel pv = .ok pv' →
      PivotsKeysIn S pv' := by
  intro fuel
  induction fuel with
  | zero => intro pv pv' _ h; cases pv <;> cases h
  | succ fuel ih =>
    intro pv pv' hp h
    cases pv with
    | nil => cases h; exact hp
    | cons p rest =>
      obtain ⟨k, cch, csz, ces⟩ := p
      obtain ⟨h1, h2, h3⟩ := hp
      have hrest : PivotsKeysIn S rest :=
        ⟨fun q hq => h1 q (List.mem_cons_of_mem _ hq),
         fun q hq => h2 q (List.mem_cons_of_mem _ hq),
         fun q hq => h3 q (List.mem_cons_of_mem _ hq)⟩
      have hhead := h1 _ (List.mem_cons_self _ _)
      have hheadmsgs := h2 _ (List.mem_cons_self _ _)
      have hheadch := h3 _ (List.mem_cons_self _ _)
      simp only [ChildInfo.elements] at hheadmsgs
      rw [rebalancePivots] at h
      simp only [ChildInfo.elements] at h
      by_cases hlen : ces.length > 2 * m
      · rw [if_pos hlen] at h
        split at h
        next hdrop =>
          cases hr : rebalancePivots m fuel rest with
          | error er => rw [hr] at h; cases h
          | ok r =>
            rw [hr] at h
            cases h
            have hr2 := ih rest r hrest hr
            refine ⟨?_, ?_, ?_⟩ <;> intro q hq <;> rcases List.mem_cons.mp hq with he | hm
            · rw [he]; exact hhead
            · exact hr2.1 q hm
            · rw [he]; intro e hee; exact hheadmsgs e hee
            · exact hr2.2.1 q hm
            · rw [he]; intro c hc; exact hheadch c hc
            · exact hr2.2.2 q hm
        next e0 hirest hdrop =>
          have hhi : ∀ e ∈ e0 :: hirest, e ∈ ces := by
            intro e hee
            rw [← hdrop] at hee
            exact List.mem_of_mem_drop hee
          split at h
          · cases hr : rebalancePivots m fuel rest with
            | error er => rw [hr] at h; cases h
            | ok r =>
              rw [hr] at h
              cases h
              have hr2 := ih rest r hrest hr
              refine ⟨?_, ?_, ?_⟩ <;> intro q hq <;> rcases List.mem_cons.mp hq with he | hm
              · rw [he]; exact hhead
              · exact hr2.1 q hm
              · rw [he]
                intro e hee
                simp only [ChildInfo.elements] at hee
                exact hheadmsgs e (hhi e hee)
              · exact hr2.2.1 q hm
              · rw [he]; intro c hc; exact hheadch c hc
              · exact hr2.2.2 q hm
          · cases hr : rebalancePivots m fuel
                ((e0.1.key, (⟨none, 0, e0 :: hirest⟩ : ChildInfo K V)) :: rest) with
            | error er => rw [hr] at h; cases h
            | ok r =>
              rw [hr] at h
              cases h
              have hnewrest : PivotsKeysIn S
                  ((e0.1.key, (⟨none, 0, e0 :: hirest⟩ : ChildInfo K V)) :: rest) := by
                refine ⟨?_, ?_, ?_⟩ <;> intro q hq <;> rcases List.mem_cons.mp hq with he | hm
                · rw [he]; exact hheadmsgs e0 (hhi e0 (List.mem_cons_self _ _))
                · exact hrest.1 q hm
                · rw [he]
                  intro e hee
                  simp only [ChildInfo.elements] at hee
                  exact hheadmsgs e (hhi e hee)
                · exact hrest.2.1 q hm
                · rw [he]; intro c hc; cases hc
                · exact hrest.2.2 q hm
              have hr2 := ih _ r hnewrest hr
              refine ⟨?_, ?_, ?_⟩ <;> intro q hq <;> rcases List.mem_cons.mp hq with he | hm
              · rw [he]; exact hhead
              · exact hr2.1 q hm
              · rw [he]
                intro e hee
                simp only [ChildInfo.elements] at hee
                exact hheadmsgs e (List.mem_of_mem_take hee)
              · exact hr2.2.1 q hm
              · rw [he]; intro c hc; exact hheadch c hc
              · exact hr2.2.2 q hm
      · rw [if_neg hlen] at h
        cases hr : rebalancePivots m fuel rest with
        | error er => rw [hr] at h; cases h
        | ok r =>
          rw [hr] at h
          cases h
          have hr2 := ih rest r hrest hr
          refine ⟨?_, ?_, ?_⟩ <;> intro q hq <;> rcases List.mem_cons.mp hq with he | hm
          · rw [he]; exact hhead
          · exact hr2.1 q hm
          · rw [he]; intro e hee; exact hheadmsgs e hee
          · exact hr2.2.1 q hm
          · rw [he]; intro c hc; exact hheadch c hc
          · exact hr2.2.2 q hm

theorem splitNode_keysIn (S : K → Prop) {C : Type} (cm : CacheModel C) (maxNS : Nat)
    (st : SwapSt C) (n : Node K V) (res : List (K × ChildInfo K V)) (st' : SwapSt C)
    (hn : NodeKeysIn S n) (h : splitNode cm maxNS st n = .ok (res, st')) :
    PivotsKeysIn S res := by
  obtain ⟨nid, nh, pv⟩ := n
  rw [nodeKeysIn_iff] at hn
  obtain ⟨h1, h2, h3⟩ := hn
  unfold splitNode at h
  split at h
  · cases h
  split at h
  · cases h
  split at h
  · rename_i e0 t0 e1 t1 heq0 heq1
    cases h
    have htake : ∀ p ∈ e0 :: t0, p ∈ pv := by
      rw [← heq0]
      exact fun p hp => List.take_subset _ _ hp
    have hdrop : ∀ p ∈ e1 :: t1, p ∈ pv := by
      rw [← heq1]
      exact fun p hp => List.drop_subset _ _ hp
    have hn0 : NodeKeysIn S ⟨st.nextId, nh, e0 :: t0⟩ :=
      NodeKeysIn.mk _ _ _ (fun p hp => h1 p (htake p hp))
        (fun p hp => h2 p (htake p hp)) (fun p hp => h3 p (htake p hp))
    have hn1 : NodeKeysIn S ⟨st.nextId + 1, nh, e1 :: t1⟩ :=
      NodeKeysIn.mk _ _ _ (fun p hp => h1 p (hdrop p hp))
        (fun p hp => h2 p (hdrop p hp)) (fun p hp => h3 p (hdrop p hp))
    have he0 : e0 ∈ pv := htake e0 (List.mem_cons_self _ _)
    have he1 : e1 ∈ pv := hdrop e1 (List.mem_cons_self _ _)
    refine ⟨?_, ?_, ?_⟩ <;> intro q hq <;>
      rcases List.mem_cons.mp hq with hqe | hq2
    · rw [hqe]; exact h1 e0 he0
    · rcases List.mem_cons.mp hq2 with hqe | hq3
      · rw [hqe]; exact h1 e1 he1
      · cases hq3
    · rw [hqe]; intro e he; cases he
    · rcases List.mem_cons.mp hq2 with hqe | hq3
      · rw [hqe]; intro e he; cases he
      · cases hq3
    · rw [hqe]; intro c hc; cases hc; exact hn0
    · rcases List.mem_cons.mp hq2 with hqe | hq3
      · rw [hqe]; intro c hc; cases hc; exact hn1
      · cases hq3
  · cases h

omit [LinearOrder K] in
theorem pivotsKeysIn_nil (S : K → Prop) :
    PivotsKeysIn (V := V) S [] :=
  ⟨fun p hp => absurd hp (List.not_mem_nil _),
   fun p hp => absurd hp (List.not_mem_nil _),
   fun p hp => absurd hp (List.not_mem_nil _)⟩

omit [LinearOrder K] in
theorem nodeKeysIn_pivots (S : K → Prop) (n : Node K V) (hn : NodeKeysIn S n) :
    PivotsKeysIn S n.pivots := by
  cases hn with
  | mk _ _ _ h1 h2 h3 => exact ⟨h1, h2, h3⟩

omit [LinearOrder K] in
theorem pivotsKeysIn_single_empty (S : K → Prop) (k0 : K) (hS : S k0) :
    PivotsKeysIn (V := V) S [(k0, ChildInfo.empty)] := by
  refine ⟨?_, ?_, ?_⟩ <;> intro p hp <;> rcases List.mem_cons.mp hp with h1 | h1
  · rw [h1]; exact hS
  · cases h1
  · rw [h1]
    intro e he
    cases he
  · cases h1
  · rw [h1]
    intro c hc
    cases hc
  · cases h1

theorem seedPivots_keysIn (S : K → Prop) (k0 : K) (pv : List (K × ChildInfo K V))
    (hp : PivotsKeysIn S pv) (hS : S k0) : PivotsKeysIn S (seedPivots k0 pv) := by
  unfold seedPivots
  split
  · exact pivotsKeysIn_nil S
  · rename_i oldmin ci0 prest heq
    by_cases hemp : pv.isEmpty = true
    · rw [if_pos hemp] at heq
      cases heq
      rw [if_neg (lt_irrefl k0)]
      exact pivotsKeysIn_single_empty S k0 hS
    · rw [if_neg hemp] at heq
      subst heq
      split
      · refine ⟨?_, ?_, ?_⟩ <;> intro q hq <;>
          rcases List.mem_cons.mp hq with hqe | hq2
        · rw [hqe]; exact hS
        · exact hp.1 q (List.mem_cons_of_mem _ hq2)
        · rw [hqe]
          intro e he
          exact hp.2.1 _ (List.mem_cons_self _ _) e he
        · exact hp.2.1 q (List.mem_cons_of_mem _ hq2)
        · rw [hqe]
          intro c hc
          exact hp.2.2 _ (List.mem_cons_self _ _) c hc
        · exact hp.2.2 q (List.mem_cons_of_mem _ hq2)
      · exact hp

theorem flushGeneral_keysIn [Add V] (S : K → Prop) {C : Type} (cm : CacheModel C)
    (minFS maxNS : Nat) (dv : V) (fuel : Nat)
    (ihL : ∀ (st : SwapSt C) (n : Node K V) (fk : K) (n' : Node K V) (st' : SwapSt C),
        NodeKeysIn S n → flushLoop cm minFS maxNS dv fuel st n fk = .ok (n', st') →
        NodeKeysIn S n')
    (st : SwapSt C) (n0 : Node K V) (elts : MsgMap K V) (fk : K)
    (n' : Node K V) (res : List (K × ChildInfo K V)) (st' : SwapSt C)
    (hn0 : NodeKeysIn S n0) (helts : ∀ e ∈ elts, S e.1.key)
    (h : (do
        let n2 ← elts.foldlM (fun nn (e : MKey K × Msg V) => Node.applyMsg dv nn e.1 e.2) n0
        let (n3, st') ← flushLoop cm minFS maxNS dv fuel st n2 fk
        if maxNS < n3.total_size then do
          let (res, st'') ← splitNode cm maxNS st' n3
          .ok (n3, res, st'')
        else .ok (n3, [], st')) = .ok (n', res, st')) :
    NodeKeysIn S n' ∧ PivotsKeysIn S res := by
  cases hfold : elts.foldlM (fun nn e => Node.applyMsg dv nn e.1 e.2) n0 with
  | error er => rw [hfold] at h; cases h
  | ok n2 =>
  rw [hfold, exceptOkBind] at h
  have hn2 := applyFold_keysIn S dv elts n0 n2 helts hn0 hfold
  cases hloop : flushLoop cm minFS maxNS dv fuel st n2 fk with
  | error er => rw [hloop] at h; cases h
  | ok lr =>
  rw [hloop, exceptOkBind] at h
  split at h
  next n3 st3 =>
  have hn3 : NodeKeysIn S n3 := ihL _ _ _ _ _ hn2 hloop
  split at h
  · cases hspl : splitNode cm maxNS st3 n3 with
    | error er => rw [hspl] at h; cases h
    | ok pr =>
      obtain ⟨r2, s2⟩ := pr
      rw [hspl] at h
      cases h
      exact ⟨hn3, splitNode_keysIn S cm maxNS st3 _ _ _ hn3 hspl⟩
  · cases h
    exact ⟨hn3, pivotsKeysIn_nil S⟩

theorem flush_keysIn [Add V] (S : K → Prop) {C : Type} (cm : CacheModel C)
    (minFS maxNS : Nat) (dv : V) :
    ∀ fuel : Nat,
      (∀ (st : SwapSt C) (n : Node K V) (elts : MsgMap K V)
          (n' : Node K V) (res : List (K × ChildInfo K V)) (st' : SwapSt C),
        NodeKeysIn S n → (∀ e ∈ elts, S e.1.key) →
        flush cm minFS maxNS dv fuel st n elts = .ok (n', res, st') →
        NodeKeysIn S n' ∧ PivotsKeysIn S res) ∧
      (∀ (st : SwapSt C) (n : Node K V) (fk : K) (n' : Node K V) (st' : SwapSt C),
        NodeKeysIn S n →
        flushLoop cm minFS maxNS dv fuel st n fk = .ok (n', st') →
        NodeKeysIn S n') := by
  intro fuel
  induction fuel with
  | zero =>
    constructor
    · intro st n elts n' res st' _ _ h; cases h
    · intro st n fk n' st' _ h; cases h
  | succ fuel ih =>
    obtain ⟨ihF, ihL⟩ := ih
    constructor
    · intro st n elts n' res st' hn helts h
      cases elts with
      | nil =>
        cases h
        exact ⟨hn, pivotsKeysIn_nil S⟩
      | cons e0 erest =>
      have hS0 : S e0.1.key := helts e0 (List.mem_cons_self _ _)
      have hseed : PivotsKeysIn S (seedPivots e0.1.key n.pivots) :=
        seedPivots_keysIn S e0.1.key n.pivots (nodeKeysIn_pivots S n hn) hS0
      rw [flush] at h
      by_cases hleaf : n.height = 0
      · rw [if_pos hleaf] at h
        cases hfold : (e0 :: erest).foldlM (fun nn e => Node.applyMsg dv nn e.1 e.2)
            (⟨n.id, n.height, seedPivots e0.1.key n.pivots⟩ : Node K V) with
        | error er => rw [hfold] at h; cases h
        | ok n2 =>
        rw [hfold, exceptOkBind] at h
        have hn2 : NodeKeysIn S n2 :=
          applyFold_keysIn S dv (e0 :: erest) _ n2 helts
            ((nodeKeysIn_iff S n.id n.height _).mpr hseed) hfold
        cases hreb : rebalancePivots minFS (rebFuel n2.pivots) n2.pivots with
        | error er => rw [hreb] at h; cases h
        | ok rp =>
        rw [hreb, exceptOkBind] at h
        have hrp : PivotsKeysIn S rp :=
          rebalance_keysIn S minFS _ _ rp (nodeKeysIn_pivots S n2 hn2) hreb
        have hn3 : NodeKeysIn S ⟨n2.id, n2.height, rp⟩ :=
          (nodeKeysIn_iff S n2.id n2.height rp).mpr hrp
        by_cases hsp : maxNS ≤ Node.total_size ⟨n2.id, n2.height, rp⟩
        · rw [if_pos hsp] at h
          cases hspl : splitNode cm maxNS st (⟨n2.id, n2.height, rp⟩ : Node K V) with
          | error er => rw [hspl] at h; cases h
          | ok pr =>
            obtain ⟨r2, s2⟩ := pr
            rw [hspl] at h
            cases h
            exact ⟨hn3, splitNode_keysIn S cm maxNS st _ _ _ hn3 hspl⟩
        · rw [if_neg hsp] at h
          cases h
          exact ⟨hn3, pivotsKeysIn_nil S⟩
      · rw [if_neg hleaf] at h
        split at h
        next => cases h
        next eL heL =>
        split at h
        next fk fci lk lci hgf hgl =>
          have hfkmem : (fk, fci) ∈ seedPivots e0.1.key n.pivots :=
            getPivot_found_mem _ _ _ _ hgf
          by_cases hfl : fk = lk
          · rw [if_pos hfl] at h
            split at h
            next hch => cases h
            next ch hch =>
            have hchK : NodeKeysIn S ch := hseed.2.2 _ hfkmem ch hch
            by_cases hdirty : cm.isDirty st.cache ch.id = true
            · rw [if_pos hdirty] at h
              split at h
              · cases h
              cases hrec : flush cm minFS maxNS dv fuel
                  ⟨cm.write st.cache ch.id, st.nextId⟩ ch (e0 :: erest) with
              | error er => rw [hrec] at h; cases h
              | ok tr =>
              rw [hrec, exceptOkBind] at h
              split at h
              next ch2 res2 st2 =>
              have hrec2 := ihF _ _ _ _ _ _ hchK helts hrec
              split at h
              · cases h
                refine ⟨?_, pivotsKeysIn_nil S⟩
                rw [nodeKeysIn_iff]
                refine ⟨?_, ?_, ?_⟩ <;> intro q hq <;>
                  rcases pmSet_mem _ _ _ _ hq with hm | he
                · exact hseed.1 q hm
                · rw [he]; exact hseed.1 (fk, fci) hfkmem
                · exact hseed.2.1 q hm
                · rw [he]
                  intro e he2
                  exact hseed.2.1 (fk, fci) hfkmem e he2
                · exact hseed.2.2 q hm
                · rw [he]
                  intro c hc
                  cases hc
                  exact hrec2.1
              · cases h
                refine ⟨?_, pivotsKeysIn_nil S⟩
                rw [nodeKeysIn_iff]
                refine ⟨?_, ?_, ?_⟩ <;> intro q hq <;>
                  rcases pmInsertAll_mem _ _ _ hq with hm | hr
                · exact hseed.1 q (pmErase_mem _ _ _ hm)
                · exact hrec2.2.1 q hr
                · exact hseed.2.1 q (pmErase_mem _ _ _ hm)
                · exact hrec2.2.2.1 q hr
                · exact hseed.2.2 q (pmErase_mem _ _ _ hm)
                · exact hrec2.2.2.2 q hr
            · rw [if_neg hdirty] at h
              exact flushGeneral_keysIn S cm minFS maxNS dv fuel ihL st
                ⟨n.id, n.height, seedPivots e0.1.key n.pivots⟩ (e0 :: erest) fk n' res st'
                ((nodeKeysIn_iff S n.id n.height _).mpr hseed) helts h
          · rw [if_neg hfl] at h
            exact flushGeneral_keysIn S cm minFS maxNS dv fuel ihL st
              ⟨n.id, n.height, seedPivots e0.1.key n.pivots⟩ (e0 :: erest) fk n' res st'
              ((nodeKeysIn_iff S n.id n.height _).mpr hseed) helts h
        next => cases h
    · intro st n fk n' st' hn h
      rw [flushLoop] at h
      split at h
      · cases hsel : selectFlushChild cm st.cache minFS n.pivots 0 none with
        | error er => rw [hsel] at h; cases h
        | ok sel =>
        rw [hsel, exceptOkBind] at h
        split at h
        next =>
          cases h
          exact hn
        next ck =>
        split at h
        next hlk => cases h
        next ci hlk =>
        have hmem := pmLookup_mem _ _ _ hlk
        have hnp := nodeKeysIn_pivots S n hn
        split at h
        next hch => cases h
        next ch hch =>
        have hchK : NodeKeysIn S ch := hnp.2.2 _ hmem ch hch
        cases hrec : flush cm minFS maxNS dv fuel
            ⟨cm.write st.cache ch.id, st.nextId⟩ ch ci.elements with
        | error er => rw [hrec] at h; cases h
        | ok tr =>
        rw [hrec, exceptOkBind] at h
        split at h
        next ch2 res2 st2 =>
        have hrec2 := ihF _ _ _ _ _ _ hchK (fun e he => hnp.2.1 _ hmem e he) hrec
        have hset : PivotsKeysIn S (pmSet ck ⟨some ch2, ci.childSize, []⟩ n.pivots) := by
          refine ⟨?_, ?_, ?_⟩ <;> intro q hq <;>
            rcases pmSet_mem _ _ _ _ hq with hm | he
          · exact hnp.1 q hm
          · rw [he]; exact hnp.1 (ck, ci) hmem
          · exact hnp.2.1 q hm
          · rw [he]
            intro e he2
            cases he2
          · exact hnp.2.2 q hm
          · rw [he]
            intro c hc
            cases hc
            exact hrec2.1
        split at h
        · have hsz : PivotsKeysIn S (pmSetSize fk ch2.total_size
              (pmSet ck ⟨some ch2, ci.childSize, []⟩ n.pivots)) := by
            refine ⟨?_, ?_, ?_⟩ <;> intro q hq <;>
              rcases pmSetSize_mem _ _ _ _ hq with hm | ⟨q2, hq2, he⟩
            · exact hset.1 q hm
            · rw [he]; exact hset.1 q2 hq2
            · exact hset.2.1 q hm
            · rw [he]
              intro e he2
              exact hset.2.1 q2 hq2 e he2
            · exact hset.2.2 q hm
            · rw [he]
              intro c hc
              exact hset.2.2 q2 hq2 c hc
          exact ihL _ _ _ _ _ ((nodeKeysIn_iff S n.id n.height _).mpr hsz) h
        · have hins : PivotsKeysIn S (pmInsertAll
              (pmErase ck (pmSet ck ⟨some ch2, ci.childSize, []⟩ n.pivots)) res2) := by
            refine ⟨?_, ?_, ?_⟩ <;> intro q hq <;>
              rcases pmInsertAll_mem _ _ _ hq with hm | hr
            · exact hset.1 q (pmErase_mem _ _ _ hm)
            · exact hrec2.2.1 q hr
            · exact hset.2.1 q (pmErase_mem _ _ _ hm)
            · exact hrec2.2.2.1 q hr
            · exact hset.2.2 q (pmErase_mem _ _ _ hm)
            · exact hrec2.2.2.2 q hr
          exact ihL _ _ _ _ _ ((nodeKeysIn_iff S n.id n.height _).mpr hins) h
      · cases h
        exact hn

theorem updateLE_length (k : K) (f : ChildInfo K V → ChildInfo K V) :
    ∀ pv : List (K × ChildInfo K V), (updateLE k f pv).length = pv.length := by
  intro pv
  induction pv with
  | nil => rfl
  | cons e rest ih =>
    cases rest with
    | nil =>
      rw [updateLE]
      split <;> rfl
    | cons e2 rest2 =>
      rw [updateLE]
      split
      · simp only [List.length_cons, ih]
      · split <;> rfl

theorem applyMsg_pivots_length [Add V] (dv : V) (n n' : Node K V) (mk : MKey K)
    (m : Msg V) (h : n.applyMsg dv mk m = .ok n') :
    n'.pivots.length = n.pivots.length := by
  unfold Node.applyMsg at h
  split at h
  · cases h
  · cases h
  · cases h
    exact updateLE_length mk.key _ n.pivots

theorem applyFold_pivots_length [Add V] (dv : V) :
    ∀ (elts : MsgMap K V) (n n' : Node K V),
      elts.foldlM (fun nn e => Node.applyMsg dv nn e.1 e.2) n = .ok n' →
      n'.pivots.length = n.pivots.length := by
  intro elts
  induction elts with
  | nil =>
    intro n n' h
    cases h
    rfl
  | cons e rest ih =>
    intro n n' h
    rw [List.foldlM_cons] at h
    cases ha : Node.applyMsg dv n e.1 e.2 with
    | error er => rw [ha] at h; cases h
    | ok n1 =>
      rw [ha, exceptOkBind] at h
      rw [ih n1 n' h]
      exact applyMsg_pivots_length dv n n1 e.1 e.2 ha

theorem rebalance_ne_nil (m : Nat) (fuel : Nat) (k : K) (ci : ChildInfo K V)
    (rest rp : List (K × ChildInfo K V))
    (h : rebalancePivots m fuel ((k, ci) :: rest) = .ok rp) : rp ≠ [] := by
  cases fuel with
  | zero => cases h
  | succ fuel =>
  rw [rebalancePivots] at h
  split at h
  · split at h
    next hdrop =>
      cases hr : rebalancePivots m fuel rest with
      | error er => rw [hr] at h; cases h
      | ok r =>
        rw [hr, exceptOkBind] at h
        cases h
        simp
    next e hirest hdrop =>
      split at h
      · cases hr : rebalancePivots m fuel rest with
        | error er => rw [hr] at h; cases h
        | ok r =>
          rw [hr, exceptOkBind] at h
          cases h
          simp
      · cases hr : rebalancePivots m fuel ((e.1.key, ⟨none, 0, e :: hirest⟩) :: rest) with
        | error er => rw [hr] at h; cases h
        | ok r =>
          rw [hr, exceptOkBind] at h
          cases h
          simp
  · cases hr : rebalancePivots m fuel rest with
    | error er => rw [hr] at h; cases h
    | ok r =>
      rw [hr, exceptOkBind] at h
      cases h
      simp

theorem splitNode_ne_nil {C : Type} (cm : CacheModel C) (maxNS : Nat) (st : SwapSt C)
    (n : Node K V) (res : List (K × ChildInfo K V)) (st' : SwapSt C)
    (h : splitNode cm maxNS st n = .ok (res, st')) : res ≠ [] := by
  unfold splitNode at h
  split at h
  · cases h
  split at h
  · cases h
  split at h
  · cases h
    simp
  · cases h

theorem pmSet_ne_nil (k : K) (ci : ChildInfo K V) (pv : List (K × ChildInfo K V))
    (hp : pv ≠ []) : pmSet k ci pv ≠ [] := by
  cases pv with
  | nil => exact absurd rfl hp
  | cons e rest =>
    rw [pmSet]
    split <;> simp

theorem pmSetSize_ne_nil (k : K) (s : Nat) (pv : List (K × ChildInfo K V))
    (hp : pv ≠ []) : pmSetSize k s pv ≠ [] := by
  cases pv with
  | nil => exact absurd rfl hp
  | cons e rest =>
    rw [pmSetSize]
    split <;> simp

theorem pmInsertKeep_ne_nil (k : K) (ci : ChildInfo K V) :
    ∀ pv : List (K × ChildInfo K V), pmInsertKeep k ci pv ≠ [] := by
  intro pv
  cases pv with
  | nil => simp [pmInsertKeep]
  | cons e rest =>
    rw [pmInsertKeep]
    split
    · simp
    · split <;> simp

theorem pmInsertAll_ne_nil (new : List (K × ChildInfo K V)) :
    ∀ pv : List (K × ChildInfo K V), pv ≠ [] → pmInsertAll pv new ≠ [] := by
  induction new with
  | nil => intro pv hp; exact hp
  | cons e rest ih =>
    intro pv hp
    rw [pmInsertAll, List.foldl_cons]
    exact ih _ (pmInsertKeep_ne_nil e.1 e.2 pv)

theorem pmInsertAll_ne_nil_of_new (new : List (K × ChildInfo K V)) (hne : new ≠ []) :
    ∀ pv : List (K × ChildInfo K V), pmInsertAll pv new ≠ [] := by
  cases new with
  | nil => exact absurd rfl hne
  | cons e rest =>
    intro pv
    rw [pmInsertAll, List.foldl_cons]
    exact pmInsertAll_ne_nil rest _ (pmInsertKeep_ne_nil e.1 e.2 pv)

theorem seedPivots_ne_nil (k0 : K) (pv : List (K × ChildInfo K V)) :
    seedPivots k0 pv ≠ [] := by
  unfold seedPivots
  split
  next heq =>
    by_cases hemp : pv.isEmpty = true
    · rw [if_pos hemp] at heq
      cases heq
    · rw [if_neg hemp] at heq
      exact absurd (by simp [heq]) hemp
  next oldmin ci0 prest heq =>
    split <;> simp

theorem flushGeneral_ne_nil [Add V] {C : Type} (cm : CacheModel C)
    (minFS maxNS : Nat) (dv : V) (fuel : Nat)
    (ihL : ∀ (st : SwapSt C) (n : Node K V) (fk : K) (n' : Node K V) (st' : SwapSt C),
        n.pivots ≠ [] → flushLoop cm minFS maxNS dv fuel st n fk = .ok (n', st') →
        n'.pivots ≠ [])
    (st : SwapSt C) (n0 : Node K V) (elts : MsgMap K V) (fk : K)
    (n' : Node K V) (res : List (K × ChildInfo K V)) (st' : SwapSt C)
    (hn0 : n0.pivots ≠ [])
    (h : (do
        let n2 ← elts.foldlM (fun nn (e : MKey K × Msg V) => Node.applyMsg dv nn e.1 e.2) n0
        let (n3, st') ← flushLoop cm minFS maxNS dv fuel st n2 fk
        if maxNS < n3.total_size then do
          let (res, st'') ← splitNode cm maxNS st' n3
          .ok (n3, res, st'')
        else .ok (n3, [], st')) = .ok (n', res, st')) :
    n'.pivots ≠ [] := by
  cases hfold : elts.foldlM (fun nn e => Node.applyMsg dv nn e.1 e.2) n0 with
  | error er => rw [hfold] at h; cases h
  | ok n2 =>
  rw [hfold, exceptOkBind] at h
  have hn2 : n2.pivots ≠ [] := by
    intro hnil
    apply hn0
    have hlen := applyFold_pivots_length dv elts n0 n2 hfold
    rw [hnil, List.length_nil] at hlen
    exact List.length_eq_zero.mp hlen.symm
  cases hloop : flushLoop cm minFS maxNS dv fuel st n2 fk with
  | error er => rw [hloop] at h; cases h
  | ok lr =>
  rw [hloop, exceptOkBind] at h
  split at h
  next n3 st3 =>
  have hn3 := ihL _ _ _ _ _ hn2 hloop
  split at h
  · cases hspl : splitNode cm maxNS st3 n3 with
    | error er => rw [hspl] at h; cases h
    | ok pr =>
      obtain ⟨r2, s2⟩ := pr
      rw [hspl] at h
      cases h
      exact hn3
  · cases h
    exact hn3

theorem flush_ne_nil [Add V] {C : Type} (cm : CacheModel C) (minFS maxNS : Nat)
    (dv : V) :
    ∀ fuel : Nat,
      (∀ (st : SwapSt C) (n : Node K V) (e0 : MKey K × Msg V) (erest : MsgMap K V)
          (n' : Node K V) (res : List (K × ChildInfo K V)) (st' : SwapSt C),
        flush cm minFS maxNS dv fuel st n (e0 :: erest) = .ok (n', res, st') →
        n'.pivots ≠ []) ∧
      (∀ (st : SwapSt C) (n : Node K V) (fk : K) (n' : Node K V) (st' : SwapSt C),
        n.pivots ≠ [] →
        flushLoop cm minFS maxNS dv fuel st n fk = .ok (n', st') →
        n'.pivots ≠ []) := by
  intro fuel
  induction fuel with
  | zero =>
    constructor
    · intro st n e0 erest n' res st' h; cases h
    · intro st n fk n' st' _ h; cases h
  | succ fuel ih =>
    obtain ⟨ihF, ihL⟩ := ih
    constructor
    · intro st n e0 erest n' res st' h
      rw [flush] at h
      by_cases hleaf : n.height = 0
      · rw [if_pos hleaf] at h
        cases hfold : (e0 :: erest).foldlM (fun nn e => Node.applyMsg dv nn e.1 e.2)
            (⟨n.id, n.height, seedPivots e0.1.key n.pivots⟩ : Node K V) with
        | error er => rw [hfold] at h; cases h
        | ok n2 =>
        rw [hfold, exceptOkBind] at h
        have hn2 : n2.pivots ≠ [] := by
          intro hnil
          have hlen := applyFold_pivots_length dv (e0 :: erest) _ n2 hfold
          rw [hnil, List.length_nil] at hlen
          exact seedPivots_ne_nil e0.1.key n.pivots (List.length_eq_zero.mp hlen.symm)
        cases hpv2 : n2.pivots with
        | nil => exact absurd hpv2 hn2
        | cons a l =>
        cases hreb : rebalancePivots minFS (rebFuel n2.pivots) n2.pivots with
        | error er => rw [hreb] at h; cases h
        | ok rp =>
        rw [hreb, exceptOkBind] at h
        have hrp : rp ≠ [] := by
          rw [hpv2] at hreb
          exact rebalance_ne_nil minFS _ a.1 a.2 l rp hreb
        by_cases hsp : maxNS ≤ Node.total_size ⟨n2.id, n2.height, rp⟩
        · rw [if_pos hsp] at h
          cases hspl : splitNode cm maxNS st (⟨n2.id, n2.height, rp⟩ : Node K V) with
          | error er => rw [hspl] at h; cases h
          | ok pr =>
            obtain ⟨r2, s2⟩ := pr
            rw [hspl] at h
            cases h
            exact hrp
        · rw [if_neg hsp] at h
          cases h
          exact hrp
      · rw [if_neg hleaf] at h
        split at h
        next => cases h
        next eL heL =>
        split at h
        next fk fci lk lci hgf hgl =>
          by_cases hfl : fk = lk
          · rw [if_pos hfl] at h
            split at h
            next hch => cases h
            next ch hch =>
            by_cases hdirty : cm.isDirty st.cache ch.id = true
            · rw [if_pos hdirty] at h
              split at h
              · cases h
              cases hrec : flush cm minFS maxNS dv fuel
                  ⟨cm.write st.cache ch.id, st.nextId⟩ ch (e0 :: erest) with
              | error er => rw [hrec] at h; cases h
              | ok tr =>
              rw [hrec, exceptOkBind] at h
              split at h
              next ch2 res2 st2 =>
              split at h
              next hres =>
                cases h
                exact pmSet_ne_nil fk _ _ (seedPivots_ne_nil e0.1.key n.pivots)
              next hres =>
                cases h
                refine pmInsertAll_ne_nil_of_new res2 ?_ _
                intro hnil
                rw [hnil] at hres
                exact hres rfl
            · rw [if_neg hdirty] at h
              exact flushGeneral_ne_nil cm minFS maxNS dv fuel ihL st
                ⟨n.id, n.height, seedPivots e0.1.key n.pivots⟩ (e0 :: erest) fk n' res st'
                (seedPivots_ne_nil e0.1.key n.pivots) h
          · rw [if_neg hfl] at h
            exact flushGeneral_ne_nil cm minFS maxNS dv fuel ihL st
              ⟨n.id, n.height, seedPivots e0.1.key n.pivots⟩ (e0 :: erest) fk n' res st'
              (seedPivots_ne_nil e0.1.key n.pivots) h
        next => cases h
    · intro st n fk n' st' hn h
      rw [flushLoop] at h
      split at h
      · cases hsel : selectFlushChild cm st.cache minFS n.pivots 0 none with
        | error er => rw [hsel] at h; cases h
        | ok sel =>
        rw [hsel, exceptOkBind] at h
        split at h
        next =>
          cases h
          exact hn
        next ck =>
        split at h
        next hlk => cases h
        next ci hlk =>
        split at h
        next hch => cases h
        next ch hch =>
        cases hrec : flush cm minFS maxNS dv fuel
            ⟨cm.write st.cache ch.id, st.nextId⟩ ch ci.elements with
        | error er => rw [hrec] at h; cases h
        | ok tr =>
        rw [hrec, exceptOkBind] at h
        split at h
        next ch2 res2 st2 =>
        split at h
        next hres =>
          refine ihL _ _ _ _ _ ?_ h
          exact pmSetSize_ne_nil fk _ _ (pmSet_ne_nil ck _ _ hn)
        next hres =>
          refine ihL _ _ _ _ _ ?_ h
          refine pmInsertAll_ne_nil_of_new res2 ?_ _
          intro hnil
          rw [hnil] at hres
          exact hres rfl
      · cases h
        exact hn

theorem upsert_keysIn [Add V] (S : K → Prop) {C : Type} (cm : CacheModel C)
    (fuel : Nat) (t t' : BTree K V C) (op : Opcode) (k : K) (v : V)
    (hS : S k) (hn : NodeKeysIn S t.root)
    (h : t.upsert cm fuel op k v = .ok t') : NodeKeysIn S t'.root := by
  unfold BTree.upsert at h
  cases hfl : flush cm t.minFlushSize t.maxNodeSize t.defaultValue fuel
      ⟨cm.write t.st.cache t.root.id, t.st.nextId⟩ t.root
      [(⟨k, t.nextTimestamp⟩, ⟨op, v⟩)] with
  | error er => rw [hfl] at h; cases h
  | ok tr =>
  rw [hfl, exceptOkBind] at h
  split at h
  next root' res st1 =>
  have hF := (flush_keysIn S cm t.minFlushSize t.maxNodeSize t.defaultValue fuel).1
      _ _ _ _ _ _ hn
      (by
        intro e he
        rcases List.mem_cons.mp he with h1 | h1
        · rw [h1]; exact hS
        · cases h1) hfl
  split at h
  · cases h
    exact hF.1
  · cases h
    exact (nodeKeysIn_iff S st1.nextId (root'.height + 1) res).mpr hF.2

theorem upsert_root_ne_nil [Add V] {C : Type} (cm : CacheModel C)
    (fuel : Nat) (t t' : BTree K V C) (op : Opcode) (k : K) (v : V)
    (h : t.upsert cm fuel op k v = .ok t') : t'.root.pivots ≠ [] := by
  unfold BTree.upsert at h
  cases hfl : flush cm t.minFlushSize t.maxNodeSize t.defaultValue fuel
      ⟨cm.write t.st.cache t.root.id, t.st.nextId⟩ t.root
      [(⟨k, t.nextTimestamp⟩, ⟨op, v⟩)] with
  | error er => rw [hfl] at h; cases h
  | ok tr =>
  rw [hfl, exceptOkBind] at h
  split at h
  next root' res st1 =>
  split at h
  next hres =>
    cases h
    exact (flush_ne_nil cm t.minFlushSize t.maxNodeSize t.defaultValue fuel).1
      _ _ _ _ _ _ _ hfl
  next hres =>
    cases h
    intro hnil
    have hr : res = [] := hnil
    rw [hr] at hres
    exact hres rfl

theorem runOps_keysIn [Add V] (S : K → Prop) {C : Type} (cm : CacheModel C)
    (fuel : Nat) :
    ∀ (ops : List (TOp K V C)) (t t' : BTree K V C),
      (∀ kk ∈ mutKeys ops, S kk) → NodeKeysIn S t.root →
      runOps cm fuel t ops = .ok t' → NodeKeysIn S t'.root := by
  intro ops
  induction ops with
  | nil =>
    intro t t' _ hn h
    cases h
    exact hn
  | cons op rest ih =>
    intro t t' hS hn h
    rw [runOps, List.foldlM_cons] at h
    cases op with
    | ins k v =>
      cases hop : runOp cm fuel t (.ins k v) with
      | error er => rw [hop] at h; cases h
      | ok t1 =>
        rw [hop, exceptOkBind] at h
        refine ih t1 t' (fun kk hk => hS kk (List.mem_cons_of_mem _ hk)) ?_ h
        exact upsert_keysIn S cm fuel t t1 .INSERT k v
          (hS k (List.mem_cons_self _ _)) hn hop
    | upd k v =>
      cases hop : runOp cm fuel t (.upd k v) with
      | error er => rw [hop] at h; cases h
      | ok t1 =>
        rw [hop, exceptOkBind] at h
        refine ih t1 t' (fun kk hk => hS kk (List.mem_cons_of_mem _ hk)) ?_ h
        exact upsert_keysIn S cm fuel t t1 .UPDATE k v
          (hS k (List.mem_cons_self _ _)) hn hop
    | del k =>
      cases hop : runOp cm fuel t (.del k) with
      | error er => rw [hop] at h; cases h
      | ok t1 =>
        rw [hop, exceptOkBind] at h
        refine ih t1 t' (fun kk hk => hS kk (List.mem_cons_of_mem _ hk)) ?_ h
        exact upsert_keysIn S cm fuel t t1 .DELETE k t.defaultValue
          (hS k (List.mem_cons_self _ _)) hn hop
    | cacheOp f =>
      cases hop : runOp cm fuel t (.cacheOp f) with
      | error er => rw [hop] at h; cases h
      | ok t1 =>
        rw [hop, exceptOkBind] at h
        refine ih t1 t' (fun kk hk => hS kk hk) ?_ h
        cases hop
        exact hn

theorem runOps_root_ne_nil [Add V] {C : Type} (cm : CacheModel C) (fuel : Nat) :
    ∀ (ops : List (TOp K V C)) (t t' : BTree K V C),
      (mutKeys ops ≠ [] ∨ t.root.pivots ≠ []) →
      runOps cm fuel t ops = .ok t' → t'.root.pivots ≠ [] := by
  intro ops
  induction ops with
  | nil =>
    intro t t' hd h
    cases h
    rcases hd with hd | hd
    · exact absurd rfl hd
    · exact hd
  | cons op rest ih =>
    intro t t' hd h
    rw [runOps, List.foldlM_cons] at h
    cases op with
    | ins k v =>
      cases hop : runOp cm fuel t (.ins k v) with
      | error er => rw [hop] at h; cases h
      | ok t1 =>
        rw [hop, exceptOkBind] at h
        exact ih t1 t' (Or.inr (upsert_root_ne_nil cm fuel t t1 .INSERT k v hop)) h
    | upd k v =>
      cases hop : runOp cm fuel t (.upd k v) with
      | error er => rw [hop] at h; cases h
      | ok t1 =>
        rw [hop, exceptOkBind] at h
        exact ih t1 t' (Or.inr (upsert_root_ne_nil cm fuel t t1 .UPDATE k v hop)) h
    | del k =>
      cases hop : runOp cm fuel t (.del k) with
      | error er => rw [hop] at h; cases h
      | ok t1 =>
        rw [hop, exceptOkBind] at h
        exact ih t1 t'
          (Or.inr (upsert_root_ne_nil cm fuel t t1 .DELETE k t.defaultValue hop)) h
    | cacheOp f =>
      cases hop : runOp cm fuel t (.cacheOp f) with
      | error er => rw [hop] at h; cases h
      | ok t1 =>
        rw [hop, exceptOkBind] at h
        refine ih t1 t' ?_ h
        rcases hd with hd | hd
        · exact Or.inl hd
        · cases hop
          exact Or.inr hd

/-- C10: once a tree has received at least one insert, update or erase,
querying any key strictly below every key ever passed to those operations
raises the out-of-range ("key does not exist") exception from the pivot
lookup rather than returning a value; on a freshly constructed tree (no
prior mutation) the same query instead dies on the pivot lookup's
non-empty-pivot-map assertion, so the not-found path indeed presupposes at
least one prior mutation. -/
theorem c10_query_below_all_mutated [Add V] {C : Type} (cm : CacheModel C)
    (c0 : C) (maxNS minFS : Nat) (dv : V) (fuel qfuel : Nat)
    (ops : List (TOp K V C)) (t' : BTree K V C) (k : K)
    (hmut : mutKeys ops ≠ [])
    (hbelow : ∀ kk ∈ mutKeys ops, k < kk)
    (hrun : runOps cm fuel (mkTree cm c0 maxNS minFS dv) ops = .ok t') :
    t'.queryV (qfuel + 1) k = .error .outOfRange ∧
    (mkTree cm c0 maxNS minFS dv : BTree K V C).queryV (qfuel + 1) k =
      .error .assertPivots := by
  constructor
  · have hkeys : NodeKeysIn (fun kk => kk ∈ mutKeys ops) t'.root :=
      runOps_keysIn _ cm fuel ops _ t' (fun kk hk => hk)
        ((nodeKeysIn_iff _ 1 0 []).mpr (pivotsKeysIn_nil _)) hrun
    have hne : t'.root.pivots ≠ [] :=
      runOps_root_ne_nil cm fuel ops _ t' (Or.inl hmut) hrun
    cases hpe : t'.root.pivots with
    | nil => exact absurd hpe hne
    | cons e rest =>
      have hS : e.1 ∈ mutKeys ops :=
        (nodeKeysIn_pivots _ _ hkeys).1 e (by
          rw [hpe]
          exact List.mem_cons_self _ _)
      have hlt : k < e.1 := hbelow e.1 hS
      rw [BTree.queryV, Node.query, hpe, getPivot, if_pos hlt]
  · rfl

/-- Witness for C10: after the single-insert run `c10ops` (key 5), querying
key 3 raises the out-of-range not-found, and the same query on a fresh tree
instead hits the empty-pivot-map assertion. -/
theorem c10_query_below_all_mutated_witness :
    mutKeys c10ops ≠ [] ∧ (∀ kk ∈ mutKeys c10ops, 3 < kk) ∧
    runOps flagCM bigFuel (mkTree flagCM ⟨[], []⟩ 16 4 0) c10ops = .ok c10tree ∧
    c10tree.queryV 1000 3 = .error .outOfRange ∧
    (mkTree flagCM ⟨[], []⟩ 16 4 0 : BTree Nat Nat FlagSt).queryV 1000 3 =
      .error .assertPivots := by
  have h := c10_query_below_all_mutated flagCM ⟨[], []⟩ 16 4 0 bigFuel 999 c10ops
    c10tree 3 (by decide) (by decide) (by rfl)
  exact ⟨by decide, by decide, by rfl, h.1, h.2⟩

theorem exceptPure {ε α : Type} (a : α) : (pure a : Except ε α) = .ok a := rfl

theorem lookupLE_single (k0 : K) (ci : ChildInfo K V) :
    lookupLE k0 [(k0, ci)] = some (k0, ci) := by
  simp [lookupLE]

theorem getPivot_single (k0 : K) (ci : ChildInfo K V) :
    getPivot [(k0, ci)] k0 = .found k0 ci := by
  simp [getPivot, lookupLE_single]

theorem updateLE_single (k0 : K) (f : ChildInfo K V → ChildInfo K V)
    (ci : ChildInfo K V) : updateLE k0 f [(k0, ci)] = [(k0, f ci)] := by
  simp [updateLE]

theorem purge_single_self (k0 : K) (mk0 : MKey K) (ms : Msg V) (hk : mk0.key = k0) :
    purge k0 [(mk0, ms)] = [] := by
  simp [purge, hk]

theorem findLastForKey_single_self (k0 : K) (mk0 : MKey K) (ms : Msg V)
    (hk : mk0.key = k0) : findLastForKey k0 [(mk0, ms)] = some (mk0, ms) := by
  simp [findLastForKey, hk]

theorem applyToElements_update_ins [Add V] (dv : V) (k0 : K) (ts ts' : Nat) (w v : V) :
    applyToElements true dv ⟨k0, ts'⟩ ⟨.UPDATE, v⟩ [(⟨k0, ts⟩, ⟨.INSERT, w⟩)] =
      [(⟨k0, ts'⟩, ⟨.INSERT, w + v⟩)] := by
  simp [applyToElements,
    findLastForKey_single_self k0 ⟨k0, ts⟩ (⟨Opcode.INSERT, w⟩ : Msg V) rfl,
    purge_single_self k0 ⟨k0, ts⟩ (⟨Opcode.INSERT, w⟩ : Msg V) rfl, mmAssign]

theorem applyToElements_update_none [Add V] (dv : V) (k0 : K) (ts' : Nat) (v : V) :
    applyToElements true dv ⟨k0, ts'⟩ ⟨.UPDATE, v⟩ [] =
      [(⟨k0, ts'⟩, ⟨.INSERT, dv + v⟩)] := by
  simp [applyToElements, findLastForKey, purge, mmAssign]

theorem applyMsg_single [Add V] (dv : V) (nid : Nat) (k0 : K) (ci : ChildInfo K V)
    (ts' : Nat) (m : Msg V) :
    Node.applyMsg dv ⟨nid, 0, [(k0, ci)]⟩ ⟨k0, ts'⟩ m =
      .ok ⟨nid, 0, [(k0, ⟨ci.child, ci.childSize,
        applyToElements true dv ⟨k0, ts'⟩ m ci.elements⟩)]⟩ := by
  simp [Node.applyMsg, getPivot_single, updateLE_single, Node.is_leaf,
    Node.pivots, Node.id, Node.height]

theorem rebFuel_single (k0 : K) (mk0 : MKey K) (ms : Msg V) :
    rebFuel [(k0, (⟨none, 0, [(mk0, ms)]⟩ : ChildInfo K V))] = 5 + 1 := rfl

theorem rebalance_single_msg (m : Nat) (hm1 : 1 ≤ m) (k0 : K) (mk0 : MKey K)
    (ms : Msg V) :
    rebalancePivots m (5 + 1) [(k0, (⟨none, 0, [(mk0, ms)]⟩ : ChildInfo K V))] =
      .ok [(k0, (⟨none, 0, [(mk0, ms)]⟩ : ChildInfo K V))] := by
  rw [rebalancePivots]
  rw [if_neg (show ¬ ((⟨none, 0, [(mk0, ms)]⟩ : ChildInfo K V).elements.length > 2 * m)
    from by
      show ¬ (1 > 2 * m)
      omega)]
  rw [show rebalancePivots m 5 ([] : List (K × ChildInfo K V)) = .ok [] from rfl]
  rfl

omit [LinearOrder K] in
theorem totalSize_single_msg (nid : Nat) (k0 : K) (mk0 : MKey K) (ms : Msg V) :
    Node.total_size (⟨nid, 0,
      [(k0, (⟨none, 0, [(mk0, ms)]⟩ : ChildInfo K V))]⟩ : Node K V) = 2 := rfl

theorem seedPivots_single (k0 : K) (ci : ChildInfo K V) :
    seedPivots k0 [(k0, ci)] = [(k0, ci)] := by
  simp [seedPivots]

theorem seedPivots_empty (k0 : K) :
    seedPivots k0 ([] : List (K × ChildInfo K V)) = [(k0, ChildInfo.empty)] := by
  simp [seedPivots]

theorem flush_update_single [Add V] {C : Type} (cm : CacheModel C)
    (minFS maxNS : Nat) (hm3 : 3 ≤ maxNS) (hm1 : 1 ≤ minFS) (dv : V)
    (fuel : Nat) (st : SwapSt C) (nid : Nat) (k0 : K) (ts ts' : Nat) (w v : V) :
    flush cm minFS maxNS dv (fuel + 1) st
      ⟨nid, 0, [(k0, ⟨none, 0, [(⟨k0, ts⟩, ⟨.INSERT, w⟩)]⟩)]⟩
      [(⟨k0, ts'⟩, ⟨.UPDATE, v⟩)] =
    .ok (⟨nid, 0, [(k0, ⟨none, 0, [(⟨k0, ts'⟩, ⟨.INSERT, w + v⟩)]⟩)]⟩, [], st) := by
  simp only [flush, Node.id, Node.height, Node.pivots, seedPivots_single,
    List.foldlM_cons, List.foldlM_nil, applyMsg_single, exceptOkBind, exceptPure,
    ChildInfo.child, ChildInfo.childSize, ChildInfo.elements,
    applyToElements_update_ins, rebFuel_single, rebalance_single_msg minFS hm1,
    totalSize_single_msg, if_neg (show ¬ (maxNS ≤ 2) from by omega),
    if_pos (rfl : (0 : Nat) = 0), if_true]

theorem flush_update_empty [Add V] {C : Type} (cm : CacheModel C)
    (minFS maxNS : Nat) (hm3 : 3 ≤ maxNS) (hm1 : 1 ≤ minFS) (dv : V)
    (fuel : Nat) (st : SwapSt C) (nid : Nat) (k0 : K) (ts' : Nat) (v : V) :
    flush cm minFS maxNS dv (fuel + 1) st (⟨nid, 0, []⟩ : Node K V)
      [(⟨k0, ts'⟩, ⟨.UPDATE, v⟩)] =
    .ok (⟨nid, 0, [(k0, ⟨none, 0, [(⟨k0, ts'⟩, ⟨.INSERT, dv + v⟩)]⟩)]⟩, [], st) := by
  simp only [flush, Node.id, Node.height, Node.pivots, seedPivots_empty,
    ChildInfo.empty, List.foldlM_cons, List.foldlM_nil, applyMsg_single,
    exceptOkBind, exceptPure, ChildInfo.child, ChildInfo.childSize,
    ChildInfo.elements, applyToElements_update_none, rebFuel_single,
    rebalance_single_msg minFS hm1, totalSize_single_msg,
    if_neg (show ¬ (maxNS ≤ 2) from by omega), if_pos (rfl : (0 : Nat) = 0), if_true]

theorem c3_upd_step [Add V] {C : Type} (cm : CacheModel C)
    (minFS maxNS : Nat) (hm3 : 3 ≤ maxNS) (hm1 : 1 ≤ minFS)
    (fuel : Nat) (dv v w : V) (k0 : K) (ts nts : Nat) (st : SwapSt C) :
    (⟨minFS, maxNS, ⟨1, 0, [(k0, ⟨none, 0, [(⟨k0, ts⟩, ⟨.INSERT, w⟩)]⟩)]⟩, nts, dv, st⟩ :
      BTree K V C).upsert cm (fuel + 1) .UPDATE k0 v =
      .ok ⟨minFS, maxNS, ⟨1, 0, [(k0, ⟨none, 0, [(⟨k0, nts⟩, ⟨.INSERT, w + v⟩)]⟩)]⟩,
           nts + 1, dv, ⟨cm.write st.cache 1, st.nextId⟩⟩ := by
  simp only [BTree.upsert, Node.id,
    flush_update_single cm minFS maxNS hm3 hm1 dv, exceptOkBind,
    List.isEmpty_nil, if_pos (rfl : true = true), if_true]

theorem c3_upd_first [Add V] {C : Type} (cm : CacheModel C)
    (minFS maxNS : Nat) (hm3 : 3 ≤ maxNS) (hm1 : 1 ≤ minFS)
    (c0 : C) (fuel : Nat) (dv v : V) (k0 : K) :
    (mkTree cm c0 maxNS minFS dv : BTree K V C).upsert cm (fuel + 1) .UPDATE k0 v =
      .ok ⟨minFS, maxNS, ⟨1, 0, [(k0, ⟨none, 0, [(⟨k0, 1⟩, ⟨.INSERT, dv + v⟩)]⟩)]⟩,
           2, dv, ⟨cm.write (cm.birth c0 1) 1, 2⟩⟩ := by
  simp only [mkTree, BTree.upsert, Node.id,
    flush_update_empty cm minFS maxNS hm3 hm1 dv, exceptOkBind,
    List.isEmpty_nil, if_pos (rfl : true = true), if_true]

theorem c3_run_updates [Add V] {C : Type} (cm : CacheModel C)
    (minFS maxNS : Nat) (hm3 : 3 ≤ maxNS) (hm1 : 1 ≤ minFS)
    (fuel : Nat) (dv : V) (k0 : K) :
    ∀ (vs : List V) (w : V) (ts nts : Nat) (st : SwapSt C),
      ∃ (ts2 nts2 : Nat) (st2 : SwapSt C),
        runOps cm (fuel + 1)
          (⟨minFS, maxNS, ⟨1, 0, [(k0, ⟨none, 0, [(⟨k0, ts⟩, ⟨.INSERT, w⟩)]⟩)]⟩,
            nts, dv, st⟩ : BTree K V C)
          (vs.map (fun v => TOp.upd k0 v)) =
        .ok ⟨minFS, maxNS,
             ⟨1, 0, [(k0, ⟨none, 0,
               [(⟨k0, ts2⟩, ⟨.INSERT, vs.foldl (fun a b => a + b) w⟩)]⟩)]⟩,
             nts2, dv, st2⟩ := by
  intro vs
  induction vs with
  | nil =>
    intro w ts nts st
    exact ⟨ts, nts, st, rfl⟩
  | cons v vs ih =>
    intro w ts nts st
    obtain ⟨ts2, nts2, st2, heq⟩ :=
      ih (w + v) nts (nts + 1) ⟨cm.write st.cache 1, st.nextId⟩
    refine ⟨ts2, nts2, st2, ?_⟩
    rw [List.map_cons, runOps, List.foldlM_cons]
    rw [show runOp cm (fuel + 1)
        (⟨minFS, maxNS, ⟨1, 0, [(k0, ⟨none, 0, [(⟨k0, ts⟩, ⟨.INSERT, w⟩)]⟩)]⟩,
          nts, dv, st⟩ : BTree K V C) (.upd k0 v) =
        .ok ⟨minFS, maxNS, ⟨1, 0, [(k0, ⟨none, 0, [(⟨k0, nts⟩, ⟨.INSERT, w + v⟩)]⟩)]⟩,
             nts + 1, dv, ⟨cm.write st.cache 1, st.nextId⟩⟩ from
      c3_upd_step cm minFS maxNS hm3 hm1 fuel dv v w k0 ts nts st]
    rw [exceptOkBind]
    exact heq

theorem query_single [Add V] (dv : V) (qf nid : Nat) (k0 : K) (ts : Nat) (w : V) :
    Node.query dv (qf + 1)
      (⟨nid, 0, [(k0, ⟨none, 0, [(⟨k0, ts⟩, ⟨.INSERT, w⟩)]⟩)]⟩ : Node K V) k0 =
    .ok w := by
  have hm : msgsFor k0 [((⟨k0, ts⟩ : MKey K), (⟨Opcode.INSERT, w⟩ : Msg V))] =
      [(⟨k0, ts⟩, ⟨Opcode.INSERT, w⟩)] := by
    simp [msgsFor]
  simp [Node.query, Node.pivots, Node.height, ChildInfo.elements, getPivot_single, hm]

theorem applyToElements_insert_nil [Add V] (dv : V) (k0 : K) (ts' : Nat) (w0 : V) :
    applyToElements true dv ⟨k0, ts'⟩ ⟨.INSERT, w0⟩ [] =
      [(⟨k0, ts'⟩, ⟨.INSERT, w0⟩)] := by
  simp [applyToElements, purge, mmAssign]

theorem applyToElements_delete_single [Add V] (dv : V) (k0 : K) (ts ts' : Nat)
    (w x : V) :
    applyToElements true dv ⟨k0, ts'⟩ ⟨.DELETE, x⟩ [(⟨k0, ts⟩, ⟨.INSERT, w⟩)] = [] := by
  simp [applyToElements,
    purge_single_self k0 ⟨k0, ts⟩ (⟨Opcode.INSERT, w⟩ : Msg V) rfl]

omit [LinearOrder K] in
theorem rebFuel_nilbuf (k0 : K) :
    rebFuel [(k0, (⟨none, 0, []⟩ : ChildInfo K V))] = 3 + 1 := rfl

theorem rebalance_single_nilbuf (m : Nat) (k0 : K) :
    rebalancePivots m (3 + 1) [(k0, (⟨none, 0, []⟩ : ChildInfo K V))] =
      .ok [(k0, (⟨none, 0, []⟩ : ChildInfo K V))] := by
  rw [rebalancePivots]
  rw [if_neg (show ¬ ((⟨none, 0, []⟩ : ChildInfo K V).elements.length > 2 * m)
    from by
      show ¬ (0 > 2 * m)
      omega)]
  rw [show rebalancePivots m 3 ([] : List (K × ChildInfo K V)) = .ok [] from rfl]
  rfl

omit [LinearOrder K] in
theorem totalSize_single_nilbuf (nid : Nat) (k0 : K) :
    Node.total_size (⟨nid, 0,
      [(k0, (⟨none, 0, []⟩ : ChildInfo K V))]⟩ : Node K V) = 1 := rfl

theorem flush_insert_empty [Add V] {C : Type} (cm : CacheModel C)
    (minFS maxNS : Nat) (hm3 : 3 ≤ maxNS) (hm1 : 1 ≤ minFS) (dv : V)
    (fuel : Nat) (st : SwapSt C) (nid : Nat) (k0 : K) (ts' : Nat) (w0 : V) :
    flush cm minFS maxNS dv (fuel + 1) st (⟨nid, 0, []⟩ : Node K V)
      [(⟨k0, ts'⟩, ⟨.INSERT, w0⟩)] =
    .ok (⟨nid, 0, [(k0, ⟨none, 0, [(⟨k0, ts'⟩, ⟨.INSERT, w0⟩)]⟩)]⟩, [], st) := by
  simp only [flush, Node.id, Node.height, Node.pivots, seedPivots_empty,
    ChildInfo.empty, List.foldlM_cons, List.foldlM_nil, applyMsg_single,
    exceptOkBind, exceptPure, ChildInfo.child, ChildInfo.childSize,
    ChildInfo.elements, applyToElements_insert_nil, rebFuel_single,
    rebalance_single_msg minFS hm1, totalSize_single_msg,
    if_neg (show ¬ (maxNS ≤ 2) from by omega), if_pos (rfl : (0 : Nat) = 0), if_true]

theorem flush_delete_single [Add V] {C : Type} (cm : CacheModel C)
    (minFS maxNS : Nat) (hm3 : 3 ≤ maxNS) (hm1 : 1 ≤ minFS) (dv : V)
    (fuel : Nat) (st : SwapSt C) (nid : Nat) (k0 : K) (ts ts' : Nat) (w x : V) :
    flush cm minFS maxNS dv (fuel + 1) st
      ⟨nid, 0, [(k0, ⟨none, 0, [(⟨k0, ts⟩, ⟨.INSERT, w⟩)]⟩)]⟩
      [(⟨k0, ts'⟩, ⟨.DELETE, x⟩)] =
    .ok (⟨nid, 0, [(k0, ⟨none, 0, []⟩)]⟩, [], st) := by
  simp only [flush, Node.id, Node.height, Node.pivots, seedPivots_single,
    List.foldlM_cons, List.foldlM_nil, applyMsg_single, exceptOkBind, exceptPure,
    ChildInfo.child, ChildInfo.childSize, ChildInfo.elements,
    applyToElements_delete_single, rebFuel_nilbuf, rebalance_single_nilbuf minFS,
    totalSize_single_nilbuf, if_neg (show ¬ (maxNS ≤ 1) from by omega),
    if_pos (rfl : (0 : Nat) = 0), if_true]

theorem flush_update_emptybuf [Add V] {C : Type} (cm : CacheModel C)
    (minFS maxNS : Nat) (hm3 : 3 ≤ maxNS) (hm1 : 1 ≤ minFS) (dv : V)
    (fuel : Nat) (st : SwapSt C) (nid : Nat) (k0 : K) (ts' : Nat) (v : V) :
    flush cm minFS maxNS dv (fuel + 1) st
      (⟨nid, 0, [(k0, ⟨none, 0, []⟩)]⟩ : Node K V)
      [(⟨k0, ts'⟩, ⟨.UPDATE, v⟩)] =
    .ok (⟨nid, 0, [(k0, ⟨none, 0, [(⟨k0, ts'⟩, ⟨.INSERT, dv + v⟩)]⟩)]⟩, [], st) := by
  simp only [flush, Node.id, Node.height, Node.pivots, seedPivots_single,
    List.foldlM_cons, List.foldlM_nil, applyMsg_single, exceptOkBind, exceptPure,
    ChildInfo.child, ChildInfo.childSize, ChildInfo.elements,
    applyToElements_update_none, rebFuel_single, rebalance_single_msg minFS hm1,
    totalSize_single_msg, if_neg (show ¬ (maxNS ≤ 2) from by omega),
    if_pos (rfl : (0 : Nat) = 0), if_true]

theorem c3_ins_first [Add V] {C : Type} (cm : CacheModel C)
    (minFS maxNS : Nat) (hm3 : 3 ≤ maxNS) (hm1 : 1 ≤ minFS)
    (c0 : C) (fuel : Nat) (dv w0 : V) (k0 : K) :
    (mkTree cm c0 maxNS minFS dv : BTree K V C).upsert cm (fuel + 1) .INSERT k0 w0 =
      .ok ⟨minFS, maxNS, ⟨1, 0, [(k0, ⟨none, 0, [(⟨k0, 1⟩, ⟨.INSERT, w0⟩)]⟩)]⟩,
           2, dv, ⟨cm.write (cm.birth c0 1) 1, 2⟩⟩ := by
  simp only [mkTree, BTree.upsert, Node.id,
    flush_insert_empty cm minFS maxNS hm3 hm1 dv, exceptOkBind,
    List.isEmpty_nil, if_pos (rfl : true = true), if_true]

theorem c3_del_step [Add V] {C : Type} (cm : CacheModel C)
    (minFS maxNS : Nat) (hm3 : 3 ≤ maxNS) (hm1 : 1 ≤ minFS)
    (fuel : Nat) (dv x w : V) (k0 : K) (ts nts : Nat) (st : SwapSt C) :
    (⟨minFS, maxNS, ⟨1, 0, [(k0, ⟨none, 0, [(⟨k0, ts⟩, ⟨.INSERT, w⟩)]⟩)]⟩, nts, dv, st⟩ :
      BTree K V C).upsert cm (fuel + 1) .DELETE k0 x =
      .ok ⟨minFS, maxNS, ⟨1, 0, [(k0, ⟨none, 0, []⟩)]⟩,
           nts + 1, dv, ⟨cm.write st.cache 1, st.nextId⟩⟩ := by
  simp only [BTree.upsert, Node.id,
    flush_delete_single cm minFS maxNS hm3 hm1 dv, exceptOkBind,
    List.isEmpty_nil, if_pos (rfl : true = true), if_true]

theorem c3_upd_emptybuf_step [Add V] {C : Type} (cm : CacheModel C)
    (minFS maxNS : Nat) (hm3 : 3 ≤ maxNS) (hm1 : 1 ≤ minFS)
    (fuel : Nat) (dv v : V) (k0 : K) (nts : Nat) (st : SwapSt C) :
    (⟨minFS, maxNS, ⟨1, 0, [(k0, ⟨none, 0, []⟩)]⟩, nts, dv, st⟩ :
      BTree K V C).upsert cm (fuel + 1) .UPDATE k0 v =
      .ok ⟨minFS, maxNS, ⟨1, 0, [(k0, ⟨none, 0, [(⟨k0, nts⟩, ⟨.INSERT, dv + v⟩)]⟩)]⟩,
           nts + 1, dv, ⟨cm.write st.cache 1, st.nextId⟩⟩ := by
  simp only [BTree.upsert, Node.id,
    flush_update_emptybuf cm minFS maxNS hm3 hm1 dv, exceptOkBind,
    List.isEmpty_nil, if_pos (rfl : true = true), if_true]

/-- C3 (amended): the update fold holds in both of the claim's cases when
the tree's history touches only the queried key.  (1) Never inserted: from
a fresh tree, running `k ≥ 1` updates with values `v1, ..., vk` on the key
and querying it returns the left fold
`(((default_value ⊕ v1) ⊕ v2) ...) ⊕ vk` of the user combiner.
(2) Last erased: from a fresh tree, inserting the key, erasing it, then
running the updates and querying returns the same fold.  Key, combiner,
default value, values, cache manager and fuel are arbitrary; the node-size
parameters need `3 ≤ max_node_size` and `1 ≤ min_flush_size` (the harness
defaults are 16 and 4).  The unrestricted claim fails: with other data in
the tree the first update itself can abort before storing anything (see the
counterexample theorem). -/
theorem c3_update_fold [Add V] {C : Type} (cm : CacheModel C) (c0 : C)
    (maxNS minFS : Nat) (hm3 : 3 ≤ maxNS) (hm1 : 1 ≤ minFS) (dv : V)
    (fuel qfuel : Nat) (k0 : K) (v0 : V) (vs : List V) :
    (∀ t' : BTree K V C,
      runOps cm (fuel + 1) (mkTree cm c0 maxNS minFS dv)
        ((v0 :: vs).map (fun v => TOp.upd k0 v)) = .ok t' →
      t'.queryV (qfuel + 1) k0 = .ok ((v0 :: vs).foldl (fun a b => a + b) dv)) ∧
    (∀ (w0 : V) (t2 : BTree K V C),
      runOps cm (fuel + 1) (mkTree cm c0 maxNS minFS dv)
        (.ins k0 w0 :: .del k0 :: (v0 :: vs).map (fun v => TOp.upd k0 v)) = .ok t2 →
      t2.queryV (qfuel + 1) k0 = .ok ((v0 :: vs).foldl (fun a b => a + b) dv)) := by
  constructor
  · intro t' hrun
    rw [List.map_cons, runOps, List.foldlM_cons] at hrun
    rw [show runOp cm (fuel + 1) (mkTree cm c0 maxNS minFS dv : BTree K V C) (.upd k0 v0) =
        .ok ⟨minFS, maxNS, ⟨1, 0, [(k0, ⟨none, 0, [(⟨k0, 1⟩, ⟨.INSERT, dv + v0⟩)]⟩)]⟩,
             2, dv, ⟨cm.write (cm.birth c0 1) 1, 2⟩⟩ from
      c3_upd_first cm minFS maxNS hm3 hm1 c0 fuel dv v0 k0] at hrun
    rw [exceptOkBind] at hrun
    obtain ⟨ts2, nts2, st2, heq⟩ :=
      c3_run_updates cm minFS maxNS hm3 hm1 fuel dv k0 vs (dv + v0) 1 2
        ⟨cm.write (cm.birth c0 1) 1, 2⟩
    rw [runOps] at heq
    rw [heq] at hrun
    cases hrun
    exact query_single dv qfuel 1 k0 ts2 (vs.foldl (fun a b => a + b) (dv + v0))
  · intro w0 t2 hrun
    rw [runOps, List.foldlM_cons] at hrun
    rw [show runOp cm (fuel + 1) (mkTree cm c0 maxNS minFS dv : BTree K V C) (.ins k0 w0) =
        .ok ⟨minFS, maxNS, ⟨1, 0, [(k0, ⟨none, 0, [(⟨k0, 1⟩, ⟨.INSERT, w0⟩)]⟩)]⟩,
             2, dv, ⟨cm.write (cm.birth c0 1) 1, 2⟩⟩ from
      c3_ins_first cm minFS maxNS hm3 hm1 c0 fuel dv w0 k0] at hrun
    rw [exceptOkBind, List.foldlM_cons] at hrun
    rw [show runOp cm (fuel + 1)
        (⟨minFS, maxNS, ⟨1, 0, [(k0, ⟨none, 0, [(⟨k0, 1⟩, ⟨.INSERT, w0⟩)]⟩)]⟩,
          2, dv, ⟨cm.write (cm.birth c0 1) 1, 2⟩⟩ : BTree K V C) (.del k0) =
        .ok ⟨minFS, maxNS, ⟨1, 0, [(k0, ⟨none, 0, []⟩)]⟩, 3, dv,
             ⟨cm.write (cm.write (cm.birth c0 1) 1) 1, 2⟩⟩ from
      c3_del_step cm minFS maxNS hm3 hm1 fuel dv dv w0 k0 1 2
        ⟨cm.write (cm.birth c0 1) 1, 2⟩] at hrun
    rw [exceptOkBind, List.map_cons, List.foldlM_cons] at hrun
    rw [show runOp cm (fuel + 1)
        (⟨minFS, maxNS, ⟨1, 0, [(k0, ⟨none, 0, []⟩)]⟩, 3, dv,
          ⟨cm.write (cm.write (cm.birth c0 1) 1) 1, 2⟩⟩ : BTree K V C) (.upd k0 v0) =
        .ok ⟨minFS, maxNS, ⟨1, 0, [(k0, ⟨none, 0, [(⟨k0, 3⟩, ⟨.INSERT, dv + v0⟩)]⟩)]⟩,
             4, dv, ⟨cm.write (cm.write (cm.write (cm.birth c0 1) 1) 1) 1, 2⟩⟩ from
      c3_upd_emptybuf_step cm minFS maxNS hm3 hm1 fuel dv v0 k0 3
        ⟨cm.write (cm.write (cm.birth c0 1) 1) 1, 2⟩] at hrun
    rw [exceptOkBind] at hrun
    obtain ⟨ts2, nts2, st2, heq⟩ :=
      c3_run_updates cm minFS maxNS hm3 hm1 fuel dv k0 vs (dv + v0) 3 4
        ⟨cm.write (cm.write (cm.write (cm.birth c0 1) 1) 1) 1, 2⟩
    rw [runOps] at heq
    rw [heq] at hrun
    cases hrun
    exact query_single dv qfuel 1 k0 ts2 (vs.foldl (fun a b => a + b) (dv + v0))

/-- Witness for the amended C3, both cases at the concrete S2 data: the
never-inserted run `update(7,"x"); update(7,"y")` and the last-erased run
`insert(7,"a"); erase(7); update(7,"x"); update(7,"y")` each make `query(7)`
return `"xy"` (string concatenation as the combiner, `""` as default,
default parameters 16 and 4). -/
theorem c3_update_fold_witness :
    (runOps flagCM 1000 (mkTree flagCM ⟨[], []⟩ 16 4 "")
        (("x" :: ["y"]).map (fun v => TOp.upd 7 v)) = .ok c3tree ∧
     c3tree.queryV 1000 7 = .ok "xy") ∧
    (runOps flagCM 1000 (mkTree flagCM ⟨[], []⟩ 16 4 "")
        (.ins 7 "a" :: .del 7 :: ("x" :: ["y"]).map (fun v => TOp.upd 7 v)) =
       .ok c3treeB ∧
     c3treeB.queryV 1000 7 = .ok "xy") :=
  ⟨⟨by rfl,
    ((c3_update_fold flagCM ⟨[], []⟩ 16 4 (by decide) (by decide) "" 999 999 7
        "x" ["y"]).1 c3tree (by rfl)).trans (by rfl)⟩,
   ⟨by rfl,
    ((c3_update_fold flagCM ⟨[], []⟩ 16 4 (by decide) (by decide) "" 999 999 7
        "x" ["y"]).2 "a" c3treeB (by rfl)).trans (by rfl)⟩⟩

/-- C3 (counterexample to the unrestricted claim): in the state reached by
`c3crashPrefix` — the dirty-child world of `c6ops` just before its final
insert — the key 66 was never passed to any operation and holds no value
(querying it raises the out-of-range not-found), yet the one-element update
sequence `update(66, 11)` on that key aborts on the dirty-child fast path's
empty-buffer assertion before storing anything, so the query after the
update sequence cannot return the fold `default_value ⊕ 11`. -/
theorem c3_update_missing_crashes :
    (runN 5 1 c3crashPrefix).map (fun t => t.queryV bigFuel 66) =
      .ok (.error .outOfRange) ∧
    runN 5 1 c3crashOps = .error .assertEmptyBuf :=
  ⟨by rfl, by rfl⟩

/-- C4: if an interior node buffers a DELETE message for a key and no other
buffered message for that key exists at the node (in reachable states a
DELETE purges all earlier same-key messages when it is applied, so "no
message with a higher timestamp" means the DELETE is the only one), then
querying that key at the node signals the out-of-range not-found without
recursing into the child subtree under that pivot: the result is already
`out_of_range` with one unit of fuel, where any recursion into a child
would have produced `.fuelOut` instead. -/
theorem c4_delete_shortcircuit [Add V] (dv : V) (n : Node K V) (k fk : K)
    (ci : ChildInfo K V) (mk2 : MKey K) (v2 : V)
    (hleaf : ¬ n.height = 0)
    (hgp : getPivot n.pivots k = .found fk ci)
    (hmsgs : msgsFor k ci.elements = [(mk2, ⟨.DELETE, v2⟩)]) :
    ∀ qf : Nat, Node.query dv (qf + 1) n k = .error .outOfRange := by
  intro qf
  simp [Node.query, hgp, hleaf, hmsgs]

/-- Witness for C4: on the concrete interior node `c4node`, whose child
stores key 5 but whose buffer holds a lone DELETE for key 5, querying key 5
with fuel 1 returns out-of-range (fuel 1 rules out any child recursion). -/
theorem c4_delete_shortcircuit_witness :
    (¬ c4node.height = 0) ∧
    getPivot c4node.pivots 5 = .found 5 c4ci ∧
    msgsFor 5 c4ci.elements = [(⟨5, 2⟩, ⟨.DELETE, 0⟩)] ∧
    Node.query 0 1 c4node 5 = .error .outOfRange :=
  ⟨by decide, by rfl, by rfl,
   c4_delete_shortcircuit 0 c4node 5 5 c4ci ⟨5, 2⟩ 0 (by decide) (by rfl) (by rfl) 0⟩

omit [LinearOrder K] in
theorem leafInv_iff (nid h : Nat) (pv : List (K × ChildInfo K V)) :
    LeafInv (⟨nid, h, pv⟩ : Node K V) ↔ PivotsLeafOK h pv := by
  constructor
  · intro hn
    cases hn with
    | mk _ _ _ h1 h2 => exact ⟨h1, h2⟩
  · intro hp
    exact LeafInv.mk nid h pv hp.1 hp.2

omit [LinearOrder K] in
theorem leafInv_pivots (n : Node K V) (hn : LeafInv n) :
    PivotsLeafOK n.height n.pivots := by
  cases hn with
  | mk _ _ _ h1 h2 => exact ⟨h1, h2⟩

theorem purge_key_ne (k : K) (es : MsgMap K V) (e : MKey K × Msg V)
    (h : e ∈ purge k es) : ¬ e.1.key = k := by
  have h2 := (List.mem_filter.mp h).2
  simpa using h2

theorem msgsFor_mem (k : K) (es : MsgMap K V) (e : MKey K × Msg V)
    (h : e ∈ msgsFor k es) : e ∈ es := (List.mem_filter.mp h).1

theorem findLastForKey_mem (k : K) (es : MsgMap K V) (e : MKey K × Msg V)
    (h : findLastForKey k es = some e) : e ∈ es := by
  unfold findLastForKey at h
  exact (List.mem_filter.mp (List.mem_of_mem_getLast? h)).1

theorem mmAssign_pairwise (mk : MKey K) (m : Msg V) :
    ∀ es : MsgMap K V,
      es.Pairwise (fun a b => ¬ a.1.key = b.1.key) →
      (∀ e ∈ es, ¬ e.1.key = mk.key) →
      (mmAssign mk m es).Pairwise (fun a b => ¬ a.1.key = b.1.key) := by
  intro es
  induction es with
  | nil =>
    intro _ _
    simp [mmAssign]
  | cons e0 rest ih =>
    intro hp hk
    rw [mmAssign]
    split
    · refine List.Pairwise.cons ?_ hp
      intro b hb
      rcases List.mem_cons.mp hb with hbe | hbm
      · rw [hbe]
        exact fun hh => hk e0 (List.mem_cons_self _ _) hh.symm
      · exact fun hh => hk b (List.mem_cons_of_mem _ hbm) hh.symm
    · split
      next hne heq =>
        exact absurd (by rw [heq]) (hk e0 (List.mem_cons_self _ _))
      next hne hne2 =>
        cases hp with
        | cons hhead htail =>
          refine List.Pairwise.cons ?_
            (ih htail (fun e he => hk e (List.mem_cons_of_mem _ he)))
          intro b hb
          rcases mmAssign_mem mk m rest b hb with hbe | hbm
          · rw [hbe]
            exact hk e0 (List.mem_cons_self _ _)
          · exact hhead b hbm

omit [LinearOrder K] in
theorem leafBufOK_sublist (es es2 : MsgMap K V) (hs : es2.Sublist es)
    (h : LeafBufOK es) : LeafBufOK es2 :=
  ⟨fun e he => h.1 e (hs.subset he), h.2.sublist hs⟩

theorem applyToElements_leafOK [Add V] (dv : V) (mk : MKey K) (m : Msg V)
    (es : MsgMap K V) (hok : LeafBufOK es) :
    LeafBufOK (applyToElements true dv mk m es) := by
  obtain ⟨hins, hpw⟩ := hok
  have hmm : ∀ m2 : Msg V, m2.opcode = .INSERT →
      LeafBufOK (mmAssign mk m2 (purge mk.key es)) := by
    intro m2 hm2
    constructor
    · intro e he
      rcases mmAssign_mem mk m2 (purge mk.key es) e he with he2 | he2
      · rw [he2]
        exact hm2
      · exact hins e (purge_mem mk.key es e he2)
    · exact mmAssign_pairwise mk m2 (purge mk.key es)
        (hpw.filter _) (fun e he => purge_key_ne mk.key es e he)
  unfold applyToElements
  split
  next hop => exact hmm m hop
  next hop =>
    rw [if_pos rfl]
    exact ⟨fun e he => hins e (purge_mem mk.key es e he), hpw.filter _⟩
  next hop =>
    split
    next hfind =>
      rw [if_pos rfl]
      exact hmm _ rfl
    next e2 hfind =>
      split
      next hop2 => exact hmm _ rfl
      next hop2 =>
        exact absurd (hins e2 (findLastForKey_mem mk.key es e2 hfind)) hop2

theorem applyMsg_height [Add V] (dv : V) (n n' : Node K V) (mk : MKey K)
    (m : Msg V) (h : n.applyMsg dv mk m = .ok n') : n'.height = n.height := by
  unfold Node.applyMsg at h
  split at h
  · cases h
  · cases h
  · cases h
    rfl

theorem applyFold_height [Add V] (dv : V) :
    ∀ (elts : MsgMap K V) (n n' : Node K V),
      elts.foldlM (fun nn e => Node.applyMsg dv nn e.1 e.2) n = .ok n' →
      n'.height = n.height := by
  intro elts
  induction elts with
  | nil =>
    intro n n' h
    cases h
    rfl
  | cons e rest ih =>
    intro n n' h
    rw [List.foldlM_cons] at h
    cases ha : Node.applyMsg dv n e.1 e.2 with
    | error er => rw [ha] at h; cases h
    | ok n1 =>
      rw [ha, exceptOkBind] at h
      rw [ih n1 n' h]
      exact applyMsg_height dv n n1 e.1 e.2 ha

theorem applyMsg_leafOK [Add V] (dv : V) (n n' : Node K V) (mk : MKey K)
    (m : Msg V) (hp : PivotsLeafOK n.height n.pivots)
    (h : n.applyMsg dv mk m = .ok n') : PivotsLeafOK n'.height n'.pivots := by
  obtain ⟨nid, nh, pv⟩ := n
  obtain ⟨hl, hc⟩ := hp
  unfold Node.applyMsg at h
  split at h
  · cases h
  · cases h
  · cases h
    constructor
    · intro h0 p hpmem
      have h0' : nh = 0 := h0
      subst h0'
      rcases updateLE_mem mk.key _ _ p hpmem with hm | ⟨q, hq, he⟩
      · exact hl rfl p hm
      · rw [he]
        exact applyToElements_leafOK dv mk m q.2.elements (hl rfl q hq)
    · intro p hpmem c hcc
      rcases updateLE_mem mk.key _ _ p hpmem with hm | ⟨q, hq, he⟩
      · exact hc p hm c hcc
      · rw [he] at hcc
        exact hc q hq c hcc

theorem applyFold_leafOK [Add V] (dv : V) :
    ∀ (elts : MsgMap K V) (n n' : Node K V),
      PivotsLeafOK n.height n.pivots →
      elts.foldlM (fun nn e => Node.applyMsg dv nn e.1 e.2) n = .ok n' →
      PivotsLeafOK n'.height n'.pivots := by
  intro elts
  induction elts with
  | nil =>
    intro n n' hp h
    cases h
    exact hp
  | cons e rest ih =>
    intro n n' hp h
    rw [List.foldlM_cons] at h
    cases ha : Node.applyMsg dv n e.1 e.2 with
    | error er => rw [ha] at h; cases h
    | ok n1 =>
      rw [ha, exceptOkBind] at h
      exact ih n1 n' (applyMsg_leafOK dv n n1 e.1 e.2 hp ha) h

theorem rebalance_leafOK (m : Nat) :
    ∀ (fuel : Nat) (pv pv' : List (K × ChildInfo K V)),
      (∀ p ∈ pv, LeafBufOK p.2.elements) →
      (∀ p ∈ pv, ∀ c, p.2.child = some c → LeafInv c) →
      rebalancePivots m fuel pv = .ok pv' →
      (∀ p ∈ pv', LeafBufOK p.2.elements) ∧
      (∀ p ∈ pv', ∀ c, p.2.child = some c → LeafInv c) := by
  intro fuel
  induction fuel with
  | zero => intro pv pv' _ _ h; cases pv <;> cases h
  | succ fuel ih =>
    intro pv pv' hb hc h
    cases pv with
    | nil =>
      cases h
      exact ⟨hb, hc⟩
    | cons p rest =>
      obtain ⟨k, cch, csz, ces⟩ := p
      have hbrest : ∀ q ∈ rest, LeafBufOK q.2.elements :=
        fun q hq => hb q (List.mem_cons_of_mem _ hq)
      have hcrest : ∀ q ∈ rest, ∀ c, q.2.child = some c → LeafInv c :=
        fun q hq => hc q (List.mem_cons_of_mem _ hq)
      have hheadb := hb _ (List.mem_cons_self _ _)
      have hheadc := hc _ (List.mem_cons_self _ _)
      simp only [ChildInfo.elements] at hheadb
      rw [rebalancePivots] at h
      simp only [ChildInfo.elements] at h
      by_cases hlen : ces.length > 2 * m
      · rw [if_pos hlen] at h
        split at h
        next hdrop =>
          cases hr : rebalancePivots m fuel rest with
          | error er => rw [hr] at h; cases h
          | ok r =>
            rw [hr] at h
            cases h
            have hr2 := ih rest r hbrest hcrest hr
            refine ⟨?_, ?_⟩ <;> intro q hq <;> rcases List.mem_cons.mp hq with he | hm
            · rw [he]
              exact hheadb
            · exact hr2.1 q hm
            · rw [he]
              intro c hc2
              exact hheadc c hc2
            · exact hr2.2 q hm
        next e0 hirest hdrop =>
          have hdropOK : LeafBufOK (e0 :: hirest) := by
            rw [← hdrop]
            exact leafBufOK_sublist ces _ (List.drop_sublist _ _) hheadb
          split at h
          · cases hr : rebalancePivots m fuel rest with
            | error er => rw [hr] at h; cases h
            | ok r =>
              rw [hr] at h
              cases h
              have hr2 := ih rest r hbrest hcrest hr
              refine ⟨?_, ?_⟩ <;> intro q hq <;> rcases List.mem_cons.mp hq with he | hm
              · rw [he]
                exact hdropOK
              · exact hr2.1 q hm
              · rw [he]
                intro c hc2
                exact hheadc c hc2
              · exact hr2.2 q hm
          · cases hr : rebalancePivots m fuel
                ((e0.1.key, (⟨none, 0, e0 :: hirest⟩ : ChildInfo K V)) :: rest) with
            | error er => rw [hr] at h; cases h
            | ok r =>
              rw [hr] at h
              cases h
              have hr2 := ih _ r
                (by
                  intro q hq
                  rcases List.mem_cons.mp hq with he | hm
                  · rw [he]
                    exact hdropOK
                  · exact hbrest q hm)
                (by
                  intro q hq
                  rcases List.mem_cons.mp hq with he | hm
                  · rw [he]
                    intro c hc2
                    cases hc2
                  · exact hcrest q hm) hr
              refine ⟨?_, ?_⟩ <;> intro q hq <;> rcases List.mem_cons.mp hq with he | hm
              · rw [he]
                exact leafBufOK_sublist ces _ (List.take_sublist _ _) hheadb
              · exact hr2.1 q hm
              · rw [he]
                intro c hc2
                exact hheadc c hc2
              · exact hr2.2 q hm
      · rw [if_neg hlen] at h
        cases hr : rebalancePivots m fuel rest with
        | error er => rw [hr] at h; cases h
        | ok r =>
          rw [hr] at h
          cases h
          have hr2 := ih rest r hbrest hcrest hr
          refine ⟨?_, ?_⟩ <;> intro q hq <;> rcases List.mem_cons.mp hq with he | hm
          · rw [he]
            exact hheadb
          · exact hr2.1 q hm
          · rw [he]
            intro c hc2
            exact hheadc c hc2
          · exact hr2.2 q hm

omit [LinearOrder K] in
theorem pivotsLeafOK_single_empty (h : Nat) (k0 : K) :
    PivotsLeafOK (V := V) h [(k0, ChildInfo.empty)] := by
  constructor
  · intro _ p hp
    rcases List.mem_cons.mp hp with h1 | h1
    · rw [h1]
      exact ⟨fun e he => absurd he (List.not_mem_nil _), List.Pairwise.nil⟩
    · cases h1
  · intro p hp c hc
    rcases List.mem_cons.mp hp with h1 | h1
    · rw [h1] at hc
      cases hc
    · cases h1

theorem seedPivots_leafOK (hh : Nat) (k0 : K) (pv : List (K × ChildInfo K V))
    (hp : PivotsLeafOK hh pv) : PivotsLeafOK hh (seedPivots k0 pv) := by
  unfold seedPivots
  split
  · exact ⟨fun _ p hp2 => absurd hp2 (List.not_mem_nil _),
      fun p hp2 => absurd hp2 (List.not_mem_nil _)⟩
  · rename_i oldmin ci0 prest heq
    by_cases hemp : pv.isEmpty = true
    · rw [if_pos hemp] at heq
      cases heq
      rw [if_neg (lt_irrefl k0)]
      exact pivotsLeafOK_single_empty hh k0
    · rw [if_neg hemp] at heq
      subst heq
      split
      · constructor
        · intro h0 q hq
          rcases List.mem_cons.mp hq with hqe | hq2
          · rw [hqe]
            exact hp.1 h0 (oldmin, ci0) (List.mem_cons_self _ _)
          · exact hp.1 h0 q (List.mem_cons_of_mem _ hq2)
        · intro q hq c hc
          rcases List.mem_cons.mp hq with hqe | hq2
          · rw [hqe] at hc
            exact hp.2 (oldmin, ci0) (List.mem_cons_self _ _) c hc
          · exact hp.2 q (List.mem_cons_of_mem _ hq2) c hc
      · exact hp

theorem splitNode_leafOK {C : Type} (cm : CacheModel C) (maxNS : Nat)
    (st : SwapSt C) (n : Node K V) (res : List (K × ChildInfo K V)) (st' : SwapSt C)
    (hn : LeafInv n) (h : splitNode cm maxNS st n = .ok (res, st')) :
    SplitResOK res := by
  obtain ⟨nid, nh, pv⟩ := n
  rw [leafInv_iff] at hn
  obtain ⟨h1, h2⟩ := hn
  unfold splitNode at h
  split at h
  · cases h
  split at h
  · cases h
  split at h
  · rename_i e0 t0 e1 t1 heq0 heq1
    cases h
    have htake : ∀ p ∈ e0 :: t0, p ∈ pv := by
      rw [← heq0]
      exact fun p hp => List.take_subset _ _ hp
    have hdrop : ∀ p ∈ e1 :: t1, p ∈ pv := by
      rw [← heq1]
      exact fun p hp => List.drop_subset _ _ hp
    have hn0 : LeafInv (⟨st.nextId, nh, e0 :: t0⟩ : Node K V) :=
      LeafInv.mk _ _ _ (fun h0 p hp => h1 h0 p (htake p hp))
        (fun p hp => h2 p (htake p hp))
    have hn1 : LeafInv (⟨st.nextId + 1, nh, e1 :: t1⟩ : Node K V) :=
      LeafInv.mk _ _ _ (fun h0 p hp => h1 h0 p (hdrop p hp))
        (fun p hp => h2 p (hdrop p hp))
    refine ⟨?_, ?_⟩ <;> intro q hq <;> rcases List.mem_cons.mp hq with hqe | hq2
    · rw [hqe]
      rfl
    · rcases List.mem_cons.mp hq2 with hqe | hq3
      · rw [hqe]
        rfl
      · cases hq3
    · rw [hqe]
      intro c hc
      cases hc
      exact hn0
    · rcases List.mem_cons.mp hq2 with hqe | hq3
      · rw [hqe]
        intro c hc
        cases hc
        exact hn1
      · cases hq3
  · cases h

omit [LinearOrder K] in
theorem leafInv_of_pivots (n : Node K V) (hp : PivotsLeafOK n.height n.pivots) :
    LeafInv n := by
  obtain ⟨nid, nh, pv⟩ := n
  exact LeafInv.mk nid nh pv hp.1 hp.2

omit [LinearOrder K] in
theorem leafBufOK_nil : LeafBufOK ([] : MsgMap K V) :=
  ⟨fun e he => absurd he (List.not_mem_nil _), List.Pairwise.nil⟩

omit [LinearOrder K] in
theorem splitResOK_nil : SplitResOK ([] : List (K × ChildInfo K V)) :=
  ⟨fun p hp => absurd hp (List.not_mem_nil _),
   fun p hp => absurd hp (List.not_mem_nil _)⟩

theorem flushGeneral_leafOK [Add V] {C : Type} (cm : CacheModel C)
    (minFS maxNS : Nat) (dv : V) (fuel : Nat)
    (ihL : ∀ (st : SwapSt C) (n : Node K V) (fk : K) (n' : Node K V) (st' : SwapSt C),
        LeafInv n → flushLoop cm minFS maxNS dv fuel st n fk = .ok (n', st') →
        LeafInv n')
    (st : SwapSt C) (n0 : Node K V) (elts : MsgMap K V) (fk : K)
    (n' : Node K V) (res : List (K × ChildInfo K V)) (st' : SwapSt C)
    (hn0 : LeafInv n0)
    (h : (do
        let n2 ← elts.foldlM (fun nn (e : MKey K × Msg V) => Node.applyMsg dv nn e.1 e.2) n0
        let (n3, st') ← flushLoop cm minFS maxNS dv fuel st n2 fk
        if maxNS < n3.total_size then do
          let (res, st'') ← splitNode cm maxNS st' n3
          .ok (n3, res, st'')
        else .ok (n3, [], st')) = .ok (n', res, st')) :
    LeafInv n' ∧ SplitResOK res := by
  cases hfold : elts.foldlM (fun nn e => Node.applyMsg dv nn e.1 e.2) n0 with
  | error er => rw [hfold] at h; cases h
  | ok n2 =>
  rw [hfold, exceptOkBind] at h
  have hn2 : LeafInv n2 :=
    leafInv_of_pivots n2 (applyFold_leafOK dv elts n0 n2 (leafInv_pivots n0 hn0) hfold)
  cases hloop : flushLoop cm minFS maxNS dv fuel st n2 fk with
  | error er => rw [hloop] at h; cases h
  | ok lr =>
  rw [hloop, exceptOkBind] at h
  split at h
  next n3 st3 =>
  have hn3 : LeafInv n3 := ihL _ _ _ _ _ hn2 hloop
  split at h
  · cases hspl : splitNode cm maxNS st3 n3 with
    | error er => rw [hspl] at h; cases h
    | ok pr =>
      obtain ⟨r2, s2⟩ := pr
      rw [hspl] at h
      cases h
      exact ⟨hn3, splitNode_leafOK cm maxNS st3 _ _ _ hn3 hspl⟩
  · cases h
    exact ⟨hn3, splitResOK_nil⟩

theorem flush_leafOK [Add V] {C : Type} (cm : CacheModel C) (minFS maxNS : Nat)
    (dv : V) :
    ∀ fuel : Nat,
      (∀ (st : SwapSt C) (n : Node K V) (elts : MsgMap K V)
          (n' : Node K V) (res : List (K × ChildInfo K V)) (st' : SwapSt C),
        LeafInv n →
        flush cm minFS maxNS dv fuel st n elts = .ok (n', res, st') →
        LeafInv n' ∧ SplitResOK res) ∧
      (∀ (st : SwapSt C) (n : Node K V) (fk : K) (n' : Node K V) (st' : SwapSt C),
        LeafInv n →
        flushLoop cm minFS maxNS dv fuel st n fk = .ok (n', st') →
        LeafInv n') := by
  intro fuel
  induction fuel with
  | zero =>
    constructor
    · intro st n elts n' res st' _ h; cases h
    · intro st n fk n' st' _ h; cases h
  | succ fuel ih =>
    obtain ⟨ihF, ihL⟩ := ih
    constructor
    · intro st n elts n' res st' hn h
      cases elts with
      | nil =>
        cases h
        exact ⟨hn, splitResOK_nil⟩
      | cons e0 erest =>
      have hseed : PivotsLeafOK n.height (seedPivots e0.1.key n.pivots) :=
        seedPivots_leafOK n.height e0.1.key n.pivots (leafInv_pivots n hn)
      rw [flush] at h
      by_cases hleaf : n.height = 0
      · rw [if_pos hleaf] at h
        cases hfold : (e0 :: erest).foldlM (fun nn e => Node.applyMsg dv nn e.1 e.2)
            (⟨n.id, n.height, seedPivots e0.1.key n.pivots⟩ : Node K V) with
        | error er => rw [hfold] at h; cases h
        | ok n2 =>
        rw [hfold, exceptOkBind] at h
        have hp2 : PivotsLeafOK n2.height n2.pivots :=
          applyFold_leafOK dv (e0 :: erest)
            ⟨n.id, n.height, seedPivots e0.1.key n.pivots⟩ n2 hseed hfold
        have h20 : n2.height = 0 :=
          (applyFold_height dv (e0 :: erest)
            ⟨n.id, n.height, seedPivots e0.1.key n.pivots⟩ n2 hfold).trans hleaf
        cases hreb : rebalancePivots minFS (rebFuel n2.pivots) n2.pivots with
        | error er => rw [hreb] at h; cases h
        | ok rp =>
        rw [hreb, exceptOkBind] at h
        have hr2 := rebalance_leafOK minFS _ n2.pivots rp (hp2.1 h20) hp2.2 hreb
        have hn3 : LeafInv (⟨n2.id, n2.height, rp⟩ : Node K V) :=
          (leafInv_iff n2.id n2.height rp).mpr ⟨fun _ => hr2.1, hr2.2⟩
        by_cases hsp : maxNS ≤ Node.total_size ⟨n2.id, n2.height, rp⟩
        · rw [if_pos hsp] at h
          cases hspl : splitNode cm maxNS st (⟨n2.id, n2.height, rp⟩ : Node K V) with
          | error er => rw [hspl] at h; cases h
          | ok pr =>
            obtain ⟨r2, s2⟩ := pr
            rw [hspl] at h
            cases h
            exact ⟨hn3, splitNode_leafOK cm maxNS st _ _ _ hn3 hspl⟩
        · rw [if_neg hsp] at h
          cases h
          exact ⟨hn3, splitResOK_nil⟩
      · rw [if_neg hleaf] at h
        split at h
        next => cases h
        next eL heL =>
        split at h
        next fk fci lk lci hgf hgl =>
          have hfkmem : (fk, fci) ∈ seedPivots e0.1.key n.pivots :=
            getPivot_found_mem _ _ _ _ hgf
          by_cases hfl : fk = lk
          · rw [if_pos hfl] at h
            split at h
            next hch => cases h
            next ch hch =>
            have hchK : LeafInv ch := hseed.2 _ hfkmem ch hch
            by_cases hdirty : cm.isDirty st.cache ch.id = true
            · rw [if_pos hdirty] at h
              split at h
              · cases h
              cases hrec : flush cm minFS maxNS dv fuel
                  ⟨cm.write st.cache ch.id, st.nextId⟩ ch (e0 :: erest) with
              | error er => rw [hrec] at h; cases h
              | ok tr =>
              rw [hrec, exceptOkBind] at h
              split at h
              next ch2 res2 st2 =>
              have hrec2 := ihF _ _ _ _ _ _ hchK hrec
              split at h
              · cases h
                refine ⟨?_, splitResOK_nil⟩
                rw [leafInv_iff]
                refine ⟨fun h0 => absurd h0 hleaf, ?_⟩
                intro q hq c hc
                rcases pmSet_mem _ _ _ _ hq with hm | he
                · exact hseed.2 q hm c hc
                · rw [he] at hc
                  cases hc
                  exact hrec2.1
              · cases h
                refine ⟨?_, splitResOK_nil⟩
                rw [leafInv_iff]
                refine ⟨fun h0 => absurd h0 hleaf, ?_⟩
                intro q hq c hc
                rcases pmInsertAll_mem _ _ _ hq with hm | hr
                · exact hseed.2 q (pmErase_mem _ _ _ hm) c hc
                · exact hrec2.2.2 q hr c hc
            · rw [if_neg hdirty] at h
              exact flushGeneral_leafOK cm minFS maxNS dv fuel ihL st
                ⟨n.id, n.height, seedPivots e0.1.key n.pivots⟩ (e0 :: erest) fk n' res st'
                ((leafInv_iff n.id n.height _).mpr hseed) h
          · rw [if_neg hfl] at h
            exact flushGeneral_leafOK cm minFS maxNS dv fuel ihL st
              ⟨n.id, n.height, seedPivots e0.1.key n.pivots⟩ (e0 :: erest) fk n' res st'
              ((leafInv_iff n.id n.height _).mpr hseed) h
        next => cases h
    · intro st n fk n' st' hn h
      rw [flushLoop] at h
      split at h
      · cases hsel : selectFlushChild cm st.cache minFS n.pivots 0 none with
        | error er => rw [hsel] at h; cases h
        | ok sel =>
        rw [hsel, exceptOkBind] at h
        split at h
        next =>
          cases h
          exact hn
        next ck =>
        split at h
        next hlk => cases h
        next ci hlk =>
        have hmem := pmLookup_mem _ _ _ hlk
        have hnp := leafInv_pivots n hn
        split at h
        next hch => cases h
        next ch hch =>
        have hchK : LeafInv ch := hnp.2 _ hmem ch hch
        cases hrec : flush cm minFS maxNS dv fuel
            ⟨cm.write st.cache ch.id, st.nextId⟩ ch ci.elements with
        | error er => rw [hrec] at h; cases h
        | ok tr =>
        rw [hrec, exceptOkBind] at h
        split at h
        next ch2 res2 st2 =>
        have hrec2 := ihF _ _ _ _ _ _ hchK hrec
        have hset : PivotsLeafOK n.height (pmSet ck ⟨some ch2, ci.childSize, []⟩ n.pivots) := by
          constructor
          · intro h0 q hq
            rcases pmSet_mem _ _ _ _ hq with hm | he
            · exact hnp.1 h0 q hm
            · rw [he]
              exact leafBufOK_nil
          · intro q hq c hc
            rcases pmSet_mem _ _ _ _ hq with hm | he
            · exact hnp.2 q hm c hc
            · rw [he] at hc
              cases hc
              exact hrec2.1
        split at h
        · refine ihL _ _ _ _ _ ?_ h
          refine (leafInv_iff n.id n.height _).mpr ⟨?_, ?_⟩
          · intro h0 q hq
            rcases pmSetSize_mem _ _ _ _ hq with hm | ⟨q2, hq2, he⟩
            · exact hset.1 h0 q hm
            · rw [he]
              exact hset.1 h0 q2 hq2
          · intro q hq c hc
            rcases pmSetSize_mem _ _ _ _ hq with hm | ⟨q2, hq2, he⟩
            · exact hset.2 q hm c hc
            · rw [he] at hc
              exact hset.2 q2 hq2 c hc
        · refine ihL _ _ _ _ _ ?_ h
          refine (leafInv_iff n.id n.height _).mpr ⟨?_, ?_⟩
          · intro h0 q hq
            rcases pmInsertAll_mem _ _ _ hq with hm | hr
            · exact hset.1 h0 q (pmErase_mem _ _ _ hm)
            · rw [hrec2.2.1 q hr]
              exact leafBufOK_nil
          · intro q hq c hc
            rcases pmInsertAll_mem _ _ _ hq with hm | hr
            · exact hset.2 q (pmErase_mem _ _ _ hm) c hc
            · exact hrec2.2.2 q hr c hc
      · cases h
        exact hn

theorem upsert_leafOK [Add V] {C : Type} (cm : CacheModel C)
    (fuel : Nat) (t t' : BTree K V C) (op : Opcode) (k : K) (v : V)
    (hn : LeafInv t.root) (h : t.upsert cm fuel op k v = .ok t') :
    LeafInv t'.root := by
  unfold BTree.upsert at h
  cases hfl : flush cm t.minFlushSize t.maxNodeSize t.defaultValue fuel
      ⟨cm.write t.st.cache t.root.id, t.st.nextId⟩ t.root
      [(⟨k, t.nextTimestamp⟩, ⟨op, v⟩)] with
  | error er => rw [hfl] at h; cases h
  | ok tr =>
  rw [hfl, exceptOkBind] at h
  split at h
  next root' res st1 =>
  have hF := (flush_leafOK cm t.minFlushSize t.maxNodeSize t.defaultValue fuel).1
      _ _ _ _ _ _ hn hfl
  split at h
  · cases h
    exact hF.1
  · cases h
    exact (leafInv_iff st1.nextId (root'.height + 1) res).mpr
      ⟨fun h0 => absurd h0 (Nat.succ_ne_zero _), hF.2.2⟩

theorem runOps_leafOK [Add V] {C : Type} (cm : CacheModel C) (fuel : Nat) :
    ∀ (ops : List (TOp K V C)) (t t' : BTree K V C),
      LeafInv t.root → runOps cm fuel t ops = .ok t' → LeafInv t'.root := by
  intro ops
  induction ops with
  | nil =>
    intro t t' hn h
    cases h
    exact hn
  | cons op rest ih =>
    intro t t' hn h
    rw [runOps, List.foldlM_cons] at h
    cases op with
    | ins k v =>
      cases hop : runOp cm fuel t (.ins k v) with
      | error er => rw [hop] at h; cases h
      | ok t1 =>
        rw [hop, exceptOkBind] at h
        exact ih t1 t' (upsert_leafOK cm fuel t t1 .INSERT k v hn hop) h
    | upd k v =>
      cases hop : runOp cm fuel t (.upd k v) with
      | error er => rw [hop] at h; cases h
      | ok t1 =>
        rw [hop, exceptOkBind] at h
        exact ih t1 t' (upsert_leafOK cm fuel t t1 .UPDATE k v hn hop) h
    | del k =>
      cases hop : runOp cm fuel t (.del k) with
      | error er => rw [hop] at h; cases h
      | ok t1 =>
        rw [hop, exceptOkBind] at h
        exact ih t1 t' (upsert_leafOK cm fuel t t1 .DELETE k t.defaultValue hn hop) h
    | cacheOp f =>
      cases hop : runOp cm fuel t (.cacheOp f) with
      | error er => rw [hop] at h; cases h
      | ok t1 =>
        rw [hop, exceptOkBind] at h
        refine ih t1 t' ?_ h
        cases hop
        exact hn

/-- C9: every run of the mutating operations (with arbitrary host cache
activity between them) starting from a fresh tree keeps the leaf-shape
invariant: at every leaf reachable from the root, every buffered message is
an INSERT and no two messages share a user key — a DELETE applied at a leaf
purges and stores nothing, and an UPDATE applied at a leaf is converted
into a single collapsed INSERT.  Consequently, at any leaf satisfying the
invariant, the leaf branch of query can never fail its INSERT assertion. -/
theorem c9_leaf_invariant [Add V] {C : Type} (cm : CacheModel C) (c0 : C)
    (maxNS minFS : Nat) (dv : V) (fuel : Nat) (ops : List (TOp K V C))
    (t' : BTree K V C)
    (hrun : runOps cm fuel (mkTree cm c0 maxNS minFS dv) ops = .ok t') :
    LeafInv t'.root ∧
    ∀ (n : Node K V) (k : K) (qf : Nat), LeafInv n → n.height = 0 →
      Node.query dv (qf + 1) n k ≠ .error .assertQuery := by
  constructor
  · exact runOps_leafOK cm fuel ops _ t'
      ((leafInv_iff 1 0 []).mpr
        ⟨fun _ p hp => absurd hp (List.not_mem_nil _),
         fun p hp => absurd hp (List.not_mem_nil _)⟩) hrun
  · intro n k qf hInv h0 hcon
    rw [Node.query] at hcon
    split at hcon
    next heq =>
      injection hcon with h2
      cases h2
    next heq =>
      injection hcon with h2
      cases h2
    next fk ci heq =>
      rw [if_pos h0] at hcon
      split at hcon
      next heq2 =>
        injection hcon with h2
        cases h2
      next e2 rest2 heq2 =>
        split at hcon
        next hop => cases hcon
        next hop =>
          have hci : (fk, ci) ∈ n.pivots := getPivot_found_mem _ _ _ _ heq
          have hL := (leafInv_pivots n hInv).1 h0 (fk, ci) hci
          have he2 : e2 ∈ ci.elements := by
            apply msgsFor_mem k ci.elements e2
            rw [heq2]
            exact List.mem_cons_self _ _
          exact absurd (hL.1 e2 he2) hop

/-- Witness for C9: the four-operation run `c9ops` (insert, update, erase,
update on the same key) produces a tree whose leaves satisfy the invariant. -/
theorem c9_leaf_invariant_witness :
    runOps flagCM bigFuel (mkTree flagCM ⟨[], []⟩ 16 4 0) c9ops = .ok c9tree ∧
    LeafInv c9tree.root :=
  ⟨by rfl,
   (c9_leaf_invariant flagCM ⟨[], []⟩ 16 4 0 bigFuel c9ops c9tree (by rfl)).1⟩

/-- C7 (counterexample): flushing six inserts for distinct keys into a fresh
leaf with `min_flush_size = 1` and `max_node_size = 100` returns (no split)
with per-pivot buffers of sizes 3, 1, 2 — the first buffer has size
`3 > 2 * min_flush_size`: `rebalance_leaf_pivots` splits an oversized buffer
once at its median and never revisits the lower half. -/
theorem c7_buffer_bound_violated :
    (flush flagCM 1 100 0 bigFuel ⟨⟨[], []⟩, 2⟩ c7leaf c7elts).map
      (fun r => (r.1.pivots.map fun p => p.2.elements.length, r.2.1.length)) =
      .ok ([3, 1, 2], 0) := by rfl

end BeTree
